import Mathlib

/-!
Verification development for the `lazyllama` server manager.

The Python source (`src/core/server_manager.py`, `src/core/servers/*.py`,
`src/core/models/alias.py`) is shallowly embedded below.  Python strings are
modelled as `List Char`, Python floats as exact rationals `ℚ` (the spec
states the admission calculus over real arithmetic), Python object identity
as a numeric `id` field allocated from a counter in the manager state, and
the mutable `ServerManager` object as an explicit state record threaded
through each operation.  The abstract collaborators of the manager
(`measure_resource_model`, the OS bind probe for ports) are parameters of an
environment record: the source leaves `measure_resource_model` to
subclasses, keyed in the cache by `(backend, model_name, command_params)`,
so the environment supplies it as a total function of that key.
-/

namespace LazyLlama

/-- Python strings are modelled as lists of characters. -/
abbrev Str := List Char

/-- The `Backend` enumeration from `src/core/models/alias.py`. -/
inductive Backend where
  | llamacpp
  | ollama
deriving DecidableEq

/-- The `AliasModel` pydantic model: an underlying model name and a backend. -/
structure AliasModel where
  model_name : Str
  backend : Backend
deriving DecidableEq

/-- The `Alias` pydantic model from `src/core/models/alias.py`. -/
structure Alias where
  name : Str
  model : AliasModel
  n_ctx : ℕ
  command_params : List Str
deriving DecidableEq

/-- The `ServerStatus` enumeration from `src/core/servers/base_server.py`. -/
inductive ServerStatus where
  | starting
  | running
  | stopping
  | stopped
deriving DecidableEq

/-- A tracked backend server as seen by the manager (`BaseServer` fields the
manager reads: `alias`, `port`, `status`, plus process liveness as reported
by `check_running`).  `id` models Python object identity. -/
structure Srv where
  id : ℕ
  alias_ : Alias
  port : ℕ
  status : ServerStatus
  alive : Bool
deriving DecidableEq

/-- The affine resource model `(r0, r1, v0, v1)` cached per configuration. -/
structure RModel where
  r0 : ℚ
  r1 : ℚ
  v0 : ℚ
  v1 : ℚ
deriving DecidableEq

/-- Cache key `(backend, model_name, tuple(command_params))` from
`ServerManager.get_or_measure_resource_model`. -/
abbrev RKey := Backend × Str × List Str

/-- Predicted RAM `r0 + r1 * n_ctx` at context size `n`. -/
def predR (m : RModel) (n : ℕ) : ℚ := m.r0 + m.r1 * n

/-- Predicted VRAM `v0 + v1 * n_ctx` at context size `n`. -/
def predV (m : RModel) (n : ℕ) : ℚ := m.v0 + m.v1 * n

/-- The key of an alias in the resource-model cache. -/
def rkey (a : Alias) : RKey := (a.model.backend, a.model.model_name, a.command_params)

/-- The mutable state of a `ServerManager` instance.  `evicted_log`
accumulates the stopped form of each server the manager evicted; it models
the external references (e.g. a test's variable) that still point at an
evicted server object after the manager dropped it from its list. -/
structure MState where
  running_servers : List Srv
  resource_models : List (RKey × RModel)
  total_ram_mb : ℚ
  total_vram_mb : ℚ
  nextId : ℕ
  evicted_log : List Srv
deriving DecidableEq

/-- External collaborators of the manager: the resource measurement routine
(abstract `measure_resource_model`, keyed like the cache) and the OS bind
probe consulted by `get_free_port`. -/
structure Env where
  measure : RKey → RModel
  bindOk : ℕ → Bool

/-- Errors surfaced by admission (`RuntimeError`s in the source). -/
inductive AdmErr where
  | evictionImpossible
  | infeasibleRequest
  | noFreePort
deriving DecidableEq

instance {ε α : Type} [DecidableEq ε] [DecidableEq α] : DecidableEq (Except ε α) :=
  fun x y =>
    match x, y with
    | Except.ok a, Except.ok b =>
      if h : a = b then isTrue (by rw [h])
      else isFalse (by intro hc; cases hc; exact h rfl)
    | Except.error a, Except.error b =>
      if h : a = b then isTrue (by rw [h])
      else isFalse (by intro hc; cases hc; exact h rfl)
    | Except.ok _, Except.error _ => isFalse (by intro hc; cases hc)
    | Except.error _, Except.ok _ => isFalse (by intro hc; cases hc)

/-- Dictionary lookup in an insertion-ordered association list (a Python
`dict` read). -/
def lookupRM (k : RKey) : List (RKey × RModel) → Option RModel
  | [] => none
  | kv :: rest => if kv.1 = k then some kv.2 else lookupRM k rest

/-- `ServerManager.get_or_measure_resource_model`: return the cached model
for the alias's key, else measure, install (a fresh key appends in dict
insertion order) and persist.  Persistence has no effect on admission state
and is modelled separately (`persistCache`). -/
def get_or_measure (env : Env) (a : Alias) (σ : MState) : RModel × MState :=
  match lookupRM (rkey a) σ.resource_models with
  | some m => (m, σ)
  | none =>
    let m := env.measure (rkey a)
    (m, { σ with resource_models := σ.resource_models ++ [(rkey a, m)] })

/-- `ServerManager.is_compatible`: same model (name and backend), identical
command parameters, and the request's context fits the running window. -/
def is_compatible (request running : Alias) : Bool :=
  decide (request.model = running.model) &&
    decide (request.command_params = running.command_params) &&
    decide (request.n_ctx ≤ running.n_ctx)

/-- The loop body of `ServerManager.get_current_usage`: walk the given
servers, skip the ones whose `check_running` is false, and accumulate the
predicted RAM and VRAM of the rest at their own `n_ctx` (measuring and
caching on a cache miss, as `get_or_measure_resource_model` does). -/
def usageGo (env : Env) : List Srv → MState → ℚ → ℚ → ℚ × ℚ × MState
  | [], σ, r, v => (r, v, σ)
  | s :: rest, σ, r, v =>
    if s.alive then
      let mm := get_or_measure env s.alias_ σ
      usageGo env rest mm.2 (r + predR mm.1 s.alias_.n_ctx) (v + predV mm.1 s.alias_.n_ctx)
    else
      usageGo env rest σ r v

/-- `ServerManager.get_current_usage`. -/
def get_current_usage (env : Env) (σ : MState) : ℚ × ℚ × MState :=
  usageGo env σ.running_servers σ 0 0

/-- An eviction candidate `(w_i, server, R_i, V_i)` as built by
`ServerManager.evict_servers`. -/
structure Cand where
  w : ℚ
  srv : Srv
  R : ℚ
  V : ℚ
deriving DecidableEq

/-- Candidate construction in `evict_servers`: only servers whose status is
`RUNNING` take part; each contributes its predicted footprint and the score
`w_i = max(R_i / max(ΔR, 1e-6), V_i / max(ΔV, 1e-6))`. -/
def candGo (env : Env) (dR dV : ℚ) : List Srv → MState → List Cand × MState
  | [], σ => ([], σ)
  | s :: rest, σ =>
    if s.status = ServerStatus.running then
      let mm := get_or_measure env s.alias_ σ
      let Ri := predR mm.1 s.alias_.n_ctx
      let Vi := predV mm.1 s.alias_.n_ctx
      let wi := max (Ri / max dR (1 / 1000000)) (Vi / max dV (1 / 1000000))
      let out := candGo env dR dV rest mm.2
      (⟨wi, s, Ri, Vi⟩ :: out.1, out.2)
    else
      candGo env dR dV rest σ

/-- Stable insertion for a descending sort by score: an element moves ahead
of another only when its score is strictly greater, so candidates with equal
scores keep their original order (Python's `list.sort` is stable). -/
def insDesc (c : Cand) : List Cand → List Cand
  | [] => [c]
  | d :: ds => if d.w < c.w then c :: d :: ds else d :: insDesc c ds

/-- Stable descending sort by score, matching
`candidates.sort(reverse=True, key=lambda tup: tup[0])`. -/
def sortDesc : List Cand → List Cand
  | [] => []
  | c :: cs => insDesc c (sortDesc cs)

/-- The greedy selection loop of `evict_servers`: take candidates in sorted
order, accumulating the totals, and stop as soon as both deficits are
covered.  Note the loop appends a candidate before testing the thresholds. -/
def selGo (dR dV : ℚ) : List Cand → ℚ → ℚ → List Cand
  | [], _, _ => []
  | c :: cs, Rt, Vt =>
    let Rt' := Rt + c.R
    let Vt' := Vt + c.V
    if dR ≤ Rt' ∧ dV ≤ Vt' then [c] else c :: selGo dR dV cs Rt' Vt'

/-- `ServerManager.evict_servers`: build candidates, sort by score
descending, select greedily; raise (`RuntimeError`, modelled as
`evictionImpossible`) only when the selection is empty, i.e. when there were
no `RUNNING` candidates at all. -/
def evict_servers (env : Env) (dR dV : ℚ) (σ : MState) :
    Except AdmErr (List Srv) × MState :=
  let cm := candGo env dR dV σ.running_servers σ
  let sel := selGo dR dV (sortDesc cm.1) 0 0
  if sel.isEmpty then (Except.error AdmErr.evictionImpossible, cm.2)
  else (Except.ok (sel.map (·.srv)), cm.2)

/-- The inner removal loop of `get_or_start_server`: drop the first tracked
server whose alias equals the evicted server's alias (Python `list.remove`
after an alias-equality scan, with `break`). -/
def removeFirstByAlias (a : Alias) : List Srv → List Srv
  | [] => []
  | s :: rest => if s.alias_ = a then rest else s :: removeFirstByAlias a rest

/-- The observable outcome of `stop_and_wait` on a server object: the
process handle is cleared (liveness becomes false) and the status ends at
`stopped`. -/
def stopSrv (t : Srv) : Srv := { t with alive := false, status := ServerStatus.stopped }

/-- Effect of `evicted_server.stop_and_wait()` on any tracked entry that is
the same object. -/
def stopInList (e : Srv) (l : List Srv) : List Srv :=
  l.map fun s => if s.id = e.id then stopSrv s else s

/-- One iteration of the eviction loop in `get_or_start_server`: remove the
first alias-equal tracked server, then stop the evicted server object
(which also updates it in place if it is still tracked), and record its
stopped form in the log of evicted objects. -/
def evictOne (e : Srv) (σ : MState) : MState :=
  { σ with
    running_servers := stopInList e (removeFirstByAlias e.alias_ σ.running_servers)
    evicted_log := σ.evicted_log ++ [stopSrv e] }

/-- The resource gate of `get_or_start_server` (steps 3-5 of the admission
algorithm): account current usage, evict on a shortfall, re-account, and
report `infeasibleRequest` when still short.  Returns the error (if any)
together with the state, since eviction is not rolled back on failure. -/
def ensureResources (env : Env) (Rneed Vneed : ℚ) (σ : MState) :
    Option AdmErr × MState :=
  let u := get_current_usage env σ
  let σ2 := u.2.2
  let Rfree := σ2.total_ram_mb - u.1
  let Vfree := σ2.total_vram_mb - u.2.1
  if Rfree < Rneed ∨ Vfree < Vneed then
    match evict_servers env (Rneed - Rfree) (Vneed - Vfree) σ2 with
    | (Except.error e, σ3) => (some e, σ3)
    | (Except.ok evicted, σ3) =>
      let σ4 := evicted.foldl (fun st e => evictOne e st) σ3
      let u2 := get_current_usage env σ4
      let σ5 := u2.2.2
      if σ5.total_ram_mb - u2.1 < Rneed ∨ σ5.total_vram_mb - u2.2.1 < Vneed then
        (some AdmErr.infeasibleRequest, σ5)
      else (none, σ5)
  else (none, σ2)

/-- `DEFAULT_PORTS` from `server_manager.py`. -/
def defaultPort : Backend → ℕ
  | Backend.llamacpp => 8000
  | Backend.ollama => 11434

/-- The scan loop of `ServerManager.get_free_port`: try up to `tries`
consecutive ports, skipping ports claimed by tracked servers and ports the
OS bind probe rejects. -/
def portScanFrom (env : Env) (claimed : List ℕ) : ℕ → ℕ → Option ℕ
  | _, 0 => none
  | port, tries + 1 =>
    if !claimed.contains port && env.bindOk port then some port
    else portScanFrom env claimed (port + 1) tries

/-- `ServerManager.get_free_port` with its default `max_tries = 100`. -/
def get_free_port (env : Env) (σ : MState) (b : Backend) : Option ℕ :=
  portScanFrom env (σ.running_servers.map (·.port)) (defaultPort b) 100

/-- `ServerManager.get_or_start_server`.  Reuse scan, resource model of the
request, resource gate (usage accounting, eviction, recheck), port
allocation, then spawn: `create_server` plus a successful `start_and_wait`
yields a fresh tracked server with status `running` and a live process,
appended to the running list. -/
def get_or_start_server (env : Env) (a : Alias) (σ : MState) :
    Except AdmErr Srv × MState :=
  match σ.running_servers.find? (fun s => s.alive && is_compatible a s.alias_) with
  | some s => (Except.ok s, σ)
  | none =>
    let mm := get_or_measure env a σ
    match ensureResources env (predR mm.1 a.n_ctx) (predV mm.1 a.n_ctx) mm.2 with
    | (some e, σ2) => (Except.error e, σ2)
    | (none, σ2) =>
      match get_free_port env σ2 a.model.backend with
      | none => (Except.error AdmErr.noFreePort, σ2)
      | some port =>
        let s : Srv :=
          { id := σ2.nextId, alias_ := a, port := port
            status := ServerStatus.running, alive := true }
        (Except.ok s,
          { σ2 with running_servers := σ2.running_servers ++ [s], nextId := σ2.nextId + 1 })

/-- Predicted RAM of a server read off a given cache (0 when its key was
never measured; every admitted server's key is cached by admission). -/
def predAtR (c : List (RKey × RModel)) (s : Srv) : ℚ :=
  match lookupRM (rkey s.alias_) c with
  | some m => predR m s.alias_.n_ctx
  | none => 0

/-- Predicted VRAM of a server read off a given cache. -/
def predAtV (c : List (RKey × RModel)) (s : Srv) : ℚ :=
  match lookupRM (rkey s.alias_) c with
  | some m => predV m s.alias_.n_ctx
  | none => 0

/-- Sum of predicted RAM over the live (`check_running` true) servers of a
list. -/
def sumAliveR (c : List (RKey × RModel)) (l : List Srv) : ℚ :=
  (l.map fun s => if s.alive then predAtR c s else 0).sum

/-- Sum of predicted VRAM over the live servers of a list. -/
def sumAliveV (c : List (RKey × RModel)) (l : List Srv) : ℚ :=
  (l.map fun s => if s.alive then predAtV c s else 0).sum

/-- Invariant I4: the predicted footprints of the tracked running servers
stay within the machine totals. -/
def I4 (σ : MState) : Prop :=
  sumAliveR σ.resource_models σ.running_servers ≤ σ.total_ram_mb ∧
    sumAliveV σ.resource_models σ.running_servers ≤ σ.total_vram_mb

instance (σ : MState) : Decidable (I4 σ) := by
  unfold I4; infer_instance

/-! ### Resource-cache persistence (`_persist_resource_cache` / `_load_resource_cache`)

The JSON layer stores each value as a four-element array of numbers, which
round-trips to the same four-tuple, so entry values are kept as `RModel`
here; the interesting part is the string encoding of the keys. -/

/-- The `StrEnum` value of a backend (`backend.value` in the source). -/
def backendStr : Backend → Str
  | Backend.llamacpp => ['l', 'l', 'a', 'm', 'a', 'c', 'p', 'p']
  | Backend.ollama => ['o', 'l', 'l', 'a', 'm', 'a']

/-- `Backend(backend_str)`: parse a backend value, `none` on `ValueError`. -/
def parseBackend (s : Str) : Option Backend :=
  if s = backendStr Backend.llamacpp then some Backend.llamacpp
  else if s = backendStr Backend.ollama then some Backend.ollama
  else none

/-- Python `",".join(command_params)`. -/
def joinComma : List Str → Str
  | [] => []
  | [x] => x
  | x :: y :: ys => x ++ ',' :: joinComma (y :: ys)

/-- Python `params_str.split(",")`: split on every comma; the empty string
yields a single empty part. -/
def splitComma : Str → List Str
  | [] => [[]]
  | c :: rest =>
    if c = ',' then [] :: splitComma rest
    else
      match splitComma rest with
      | [] => [[c]]
      | p :: ps => (c :: p) :: ps

/-- Python `key_str.split("::")`: split on every non-overlapping
left-to-right occurrence of the two-character separator. -/
def splitCC : Str → List Str
  | [] => [[]]
  | [c] => [[c]]
  | c1 :: c2 :: rest =>
    if c1 = ':' ∧ c2 = ':' then [] :: splitCC rest
    else
      match splitCC (c2 :: rest) with
      | [] => [[c1]]
      | p :: ps => (c1 :: p) :: ps

/-- The persisted key string
`f"{backend.value}::{model_name}::{','.join(command_params)}"`. -/
def encodeKey (k : RKey) : Str :=
  backendStr k.1 ++ (':' :: ':' :: (k.2.1 ++ (':' :: ':' :: joinComma k.2.2)))

/-- One iteration of `_load_resource_cache`: split the key string on `"::"`,
require exactly three parts, split the parameter part on commas (an empty
parameter string yields no parameters), and parse the backend; any failure
skips the entry. -/
def decodeKey (s : Str) : Option RKey :=
  match splitCC s with
  | [b, n, p] =>
    match parseBackend b with
    | some backend => some (backend, n, if p = [] then [] else splitComma p)
    | none => none
  | _ => none

/-- Python `dict` insertion: overwrite in place when the key is present,
else append in iteration order. -/
def dictInsert {α β : Type} [DecidableEq α] (k : α) (v : β) :
    List (α × β) → List (α × β)
  | [] => [(k, v)]
  | kv :: rest => if kv.1 = k then (k, v) :: rest else kv :: dictInsert k v rest

/-- `_persist_resource_cache`: write the dictionary mapping each encoded key
string to its four-tuple, iterating the in-memory cache in order. -/
def persistCache (c : List (RKey × RModel)) : List (Str × RModel) :=
  c.foldl (fun acc kv => dictInsert (encodeKey kv.1) kv.2 acc) []

/-- `_load_resource_cache` applied to a persisted dictionary, building the
in-memory cache of a freshly constructed manager (which starts empty). -/
def loadCache (entries : List (Str × RModel)) : List (RKey × RModel) :=
  entries.foldl
    (fun acc e =>
      match decodeKey e.1 with
      | some k => dictInsert k e.2 acc
      | none => acc)
    []

/-! ### llama.cpp model-path resolution (`LlamaCppServer._resolve_model_path`) -/

/-- The filesystem and global configuration visible to path resolution:
whether a global config file exists, the `llamacpp_model_dir` field inside
it, and which paths exist on disk. -/
structure ResolveEnv where
  globalConfig : Option (Option Str)
  fileExists : Str → Bool

/-- Failure signals of path resolution (`ValueError`s in the source; the
spec groups them as `ModelNotFound`). -/
inductive ResolveErr where
  | noGlobalConfig
  | noLlamaDir
  | modelFileMissing
deriving DecidableEq

/-- The literal suffix `".gguf"`. -/
def ggufSuffix : Str := ['.', 'g', 'g', 'u', 'f']

/-- Python `s.endswith(suf)`. -/
def endsWith (suf s : Str) : Bool := List.isPrefixOf suf.reverse s.reverse

/-- Whether a path string is absolute (used only to state the claim; the
source never performs this check). -/
def isAbsolutePath (s : Str) : Bool :=
  match s with
  | '/' :: _ => true
  | _ => false

/-- `LlamaCppServer._resolve_model_path`: a name ending in `.gguf` is
returned verbatim; otherwise the name is resolved under the global config's
`llamacpp_model_dir` with `.gguf` appended when absent (always, in this
branch), failing when the config, the directory or the file is missing.
A `None` or empty directory is falsy in Python, hence `noLlamaDir`.
`Path(dir) / name` is modelled as `dir ++ "/" ++ name`. -/
def resolve_model_path (env : ResolveEnv) (model_name : Str) : Except ResolveErr Str :=
  if endsWith ggufSuffix model_name then Except.ok model_name
  else
    match env.globalConfig with
    | none => Except.error ResolveErr.noGlobalConfig
    | some dirOpt =>
      match dirOpt with
      | none => Except.error ResolveErr.noLlamaDir
      | some dir =>
        if dir = [] then Except.error ResolveErr.noLlamaDir
        else
          let name2 :=
            if endsWith ggufSuffix model_name then model_name
            else model_name ++ ggufSuffix
          let path := dir ++ '/' :: name2
          if env.fileExists path then Except.ok path
          else Except.error ResolveErr.modelFileMissing

/-! ### Backend process lifecycle (`CommandServer`, `OllamaServer`)

`start` and `stop` interact with the OS; what the embedding keeps is the
process handle each class stores and the flag of whether a call spawned a
new process.  A fresh pid is supplied by the caller (the OS). -/

/-- A spawned subprocess handle: its pid and `returncode` (`none` while the
process is still running). -/
structure Proc where
  pid : ℕ
  returncode : Option ℤ
deriving DecidableEq

/-- The state of a `CommandServer` (also of `LlamaCppServer`, which inherits
`start`/`stop`/`check_running` unchanged): the stored `self.process`. -/
structure CmdSt where
  process : Option Proc
deriving DecidableEq

/-- `CommandServer.check_running`: the handle exists and has not exited. -/
def cmd_check_running (st : CmdSt) : Bool :=
  match st.process with
  | none => false
  | some p => decide (p.returncode = none)

/-- `CommandServer.start`: return immediately when the stored process is
live, else spawn (the returned flag reports whether a process was
spawned). -/
def cmd_start (fresh : ℕ) (st : CmdSt) : CmdSt × Bool :=
  match st.process with
  | some p =>
    if p.returncode = none then (st, false)
    else ({ process := some { pid := fresh, returncode := none } }, true)
  | none => ({ process := some { pid := fresh, returncode := none } }, true)

/-- `LlamaCppServer` does not override `start`; it inherits
`CommandServer.start`. -/
def llamacpp_start (fresh : ℕ) (st : CmdSt) : CmdSt × Bool := cmd_start fresh st

/-- `CommandServer.stop`: terminate (then kill) the process if live, and in
every case clear the stored handle before returning. -/
def cmd_stop (_st : CmdSt) : CmdSt := { process := none }

/-- `BaseServer.stop_and_wait` for a command server: `stop`, then poll
`check_running` until false.  The loop body changes no state, so the poll
either exits at its first check or never; `none` models the diverging
case. -/
def cmd_stop_and_wait (st : CmdSt) : Option (CmdSt × ServerStatus) :=
  let st1 := cmd_stop st
  if cmd_check_running st1 then none else some (st1, ServerStatus.stopped)

/-- The state of an `OllamaServer`: the stored `self._process` and
`self._ollama_pid`. -/
structure OllamaSt where
  oproc : Option Proc
  opid : Option ℕ
deriving DecidableEq

/-- `OllamaServer.check_running`: the stored `_process` exists and has not
exited. -/
def ollama_check_running (st : OllamaSt) : Bool :=
  match st.oproc with
  | none => false
  | some p => decide (p.returncode = none)

/-- `OllamaServer.start` step 1 (the spawn of `ollama serve`): the source
spawns unconditionally, with no liveness guard; steps 2-4 are HTTP waits
with no effect on the stored handles. -/
def ollama_start (fresh : ℕ) (_st : OllamaSt) : OllamaSt × Bool :=
  ({ oproc := some { pid := fresh, returncode := none }, opid := some fresh }, true)

/-- `OllamaServer.stop`: terminate the process tree best-effort, then clear
both stored handles before returning. -/
def ollama_stop (_st : OllamaSt) : OllamaSt := { oproc := none, opid := none }

/-- `BaseServer.stop_and_wait` for an Ollama server. -/
def ollama_stop_and_wait (st : OllamaSt) : Option (OllamaSt × ServerStatus) :=
  let st1 := ollama_stop st
  if ollama_check_running st1 then none else some (st1, ServerStatus.stopped)

/-! ### Concrete fixtures (used by witnesses and counterexamples)

The resource-model stub `(100, 0.1, 200, 0.2)` is the one the spec's
scenario section fixes; the bind probe always succeeds. -/

/-- Environment with the spec's resource-model stub. -/
def envW : Env := { measure := fun _ => ⟨100, 1 / 10, 200, 1 / 5⟩, bindOk := fun _ => true }

/-- A single llama.cpp model. -/
def modelW : AliasModel := { model_name := ['m'], backend := Backend.llamacpp }

/-- An alias at context size 1000. -/
def aliasW : Alias := { name := ['a'], model := modelW, n_ctx := 1000, command_params := [] }

/-- The server spawned for `aliasW` from an empty manager. -/
def srvW : Srv :=
  { id := 0, alias_ := aliasW, port := 8000, status := ServerStatus.running, alive := true }

/-- An empty manager with totals 1000/1000. -/
def σE : MState :=
  { running_servers := [], resource_models := [], total_ram_mb := 1000,
    total_vram_mb := 1000, nextId := 0, evicted_log := [] }

/-- The manager state after admitting `aliasW` into `σE`. -/
def σE1 : MState :=
  { running_servers := [srvW], resource_models := [(rkey aliasW, ⟨100, 1 / 10, 200, 1 / 5⟩)],
    total_ram_mb := 1000, total_vram_mb := 1000, nextId := 1, evicted_log := [] }

/-- The same configuration as `aliasW` at a smaller context size. -/
def aliasW2 : Alias := { name := ['b'], model := modelW, n_ctx := 500, command_params := [] }

/-- Sum of predicted RAM over a list of servers, read off a cache. -/
def sumPredR (c : List (RKey × RModel)) (l : List Srv) : ℚ := (l.map (predAtR c)).sum

/-- Sum of predicted VRAM over a list of servers, read off a cache. -/
def sumPredV (c : List (RKey × RModel)) (l : List Srv) : ℚ := (l.map (predAtV c)).sum

/-- The minimality property claimed of the eviction selector: no selected
server is redundant, i.e. dropping any one of them leaves the rest short of
at least one deficit. -/
def selectionMinimal (c : List (RKey × RModel)) (dR dV : ℚ) (sel : List Srv) : Prop :=
  ∀ s ∈ sel, sumPredR c (sel.erase s) < dR ∨ sumPredV c (sel.erase s) < dV

/-- A string free of the `':'` character (so `"::"`-splitting cannot cut
through it). -/
def noColon (s : Str) : Prop := ∀ ch ∈ s, ch ≠ ':'

/-- A string free of the `','` character. -/
def noComma (s : Str) : Prop := ∀ ch ∈ s, ch ≠ ','

/-- Keys on which the unescaped `"::"`/`","` encoding of the persisted
cache is faithful: the model name contains no colon, the parameters contain
no colon and no comma, and the parameter list is not the single empty
string (which `",".join` collapses to the empty string). -/
def cleanKey (k : RKey) : Prop :=
  noColon k.2.1 ∧ (∀ p ∈ k.2.2, noColon p ∧ noComma p) ∧ k.2.2 ≠ [[]]

instance (s : Str) : Decidable (noColon s) := by unfold noColon; infer_instance

instance (s : Str) : Decidable (noComma s) := by unfold noComma; infer_instance

instance (k : RKey) : Decidable (cleanKey k) := by unfold cleanKey; infer_instance

/-- The key column of an association list. -/
def keys {α β : Type} (l : List (α × β)) : List α := l.map (·.1)

/-! ### Fixtures for the eviction counterexamples -/

/-- A model that is RAM-heavy but VRAM-light. -/
def mP : RModel := ⟨100, 0, 5, 0⟩

/-- A model that alone covers both example deficits. -/
def mQ : RModel := ⟨12, 0, 12, 0⟩

/-- Alias for the RAM-heavy model. -/
def aliasP : Alias :=
  { name := ['p'], model := { model_name := ['p'], backend := Backend.llamacpp },
    n_ctx := 1, command_params := [] }

/-- Alias for the balanced model. -/
def aliasQ : Alias :=
  { name := ['q'], model := { model_name := ['q'], backend := Backend.llamacpp },
    n_ctx := 1, command_params := [] }

/-- Running server for `aliasP`. -/
def srvP : Srv :=
  { id := 1, alias_ := aliasP, port := 8000, status := ServerStatus.running, alive := true }

/-- Running server for `aliasQ`. -/
def srvQ : Srv :=
  { id := 2, alias_ := aliasQ, port := 8001, status := ServerStatus.running, alive := true }

/-- Manager holding both eviction candidates, models pre-measured. -/
def σC4 : MState :=
  { running_servers := [srvP, srvQ],
    resource_models := [(rkey aliasP, mP), (rkey aliasQ, mQ)],
    total_ram_mb := 10000, total_vram_mb := 10000, nextId := 3, evicted_log := [] }

/-- Manager holding only the RAM-heavy candidate. -/
def σC5 : MState := { σC4 with running_servers := [srvP] }

/-! ### Fixtures for scenario S2 (claim C6) -/

/-- S2: alias `A` at context 3000. -/
def aliasA6 : Alias := { name := ['A'], model := modelW, n_ctx := 3000, command_params := [] }

/-- S2: alias `B`, same model, context 3500. -/
def aliasB6 : Alias := { name := ['B'], model := modelW, n_ctx := 3500, command_params := [] }

/-- S2: empty manager with totals RAM=400, VRAM=800. -/
def σ6zero : MState :=
  { running_servers := [], resource_models := [], total_ram_mb := 400,
    total_vram_mb := 800, nextId := 0, evicted_log := [] }

/-- S2: the server spawned for `A`. -/
def srvA6 : Srv :=
  { id := 0, alias_ := aliasA6, port := 8000, status := ServerStatus.running, alive := true }

/-- S2: manager state after admitting `A`. -/
def σ6one : MState :=
  { σ6zero with
      running_servers := [srvA6]
      resource_models := [(rkey aliasA6, ⟨100, 1 / 10, 200, 1 / 5⟩)]
      nextId := 1 }

/-- S2: manager state after the failed admission of `B`: `A` evicted and
stopped, nothing running. -/
def σ6two : MState :=
  { σ6one with
      running_servers := []
      evicted_log := [stopSrv srvA6] }

/-! ### Fixtures for persistence, path resolution and lifecycle claims -/

/-- A cache value. -/
def mX : RModel := ⟨1, 2, 3, 4⟩

/-- A cache key whose single command parameter contains a comma. -/
def keyX : RKey := (Backend.llamacpp, ['m'], [['a', ',', 'b']])

/-- A one-entry cache with a clean key (no separator characters inside). -/
def cW : List (RKey × RModel) := [((Backend.llamacpp, ['m'], [['x']]), mX)]

/-- Resolution environment with no global config and no files. -/
def envR : ResolveEnv := { globalConfig := none, fileExists := fun _ => false }

/-- A relative path that ends in `.gguf`. -/
def nameRel : Str := ['m', '.', 'g', 'g', 'u', 'f']

/-- Resolution environment with a model directory `d` and every file
present. -/
def envR2 : ResolveEnv := { globalConfig := some (some ['d']), fileExists := fun _ => true }

/-- A live command-server state. -/
def cmdLive : CmdSt := { process := some { pid := 3, returncode := none } }

/-- A live Ollama server state. -/
def ollamaLive : OllamaSt := { oproc := some { pid := 7, returncode := none }, opid := some 7 }

/-! ### Lemmas: cache extension and state frames -/

/-- One cache extends another when it preserves every successful lookup
(admission only ever appends fresh keys). -/
def cacheExt (c c' : List (RKey × RModel)) : Prop :=
  ∀ k m, lookupRM k c = some m → lookupRM k c' = some m

/-- Totals and the identity counter are never changed by any phase of
admission. -/
def baseEq (σ σ' : MState) : Prop :=
  σ'.total_ram_mb = σ.total_ram_mb ∧ σ'.total_vram_mb = σ.total_vram_mb ∧
    σ'.nextId = σ.nextId

/-- Frame of the phases that touch only the resource cache. -/
def coreEq (σ σ' : MState) : Prop :=
  σ'.running_servers = σ.running_servers ∧ baseEq σ σ'

/-- Sum of the recorded RAM contributions of candidates. -/
def sumCR (l : List Cand) : ℚ := (l.map (·.R)).sum

/-- Sum of the recorded VRAM contributions of candidates. -/
def sumCV (l : List Cand) : ℚ := (l.map (·.V)).sum


lemma cacheExt_refl (c : List (RKey × RModel)) : cacheExt c c := fun _ _ h => h

lemma cacheExt_trans {a b c : List (RKey × RModel)}
    (h1 : cacheExt a b) (h2 : cacheExt b c) : cacheExt a c :=
  fun k m h => h2 k m (h1 k m h)

lemma lookupRM_append_left {c : List (RKey × RModel)} {k : RKey} {m : RModel}
    (h : lookupRM k c = some m) (d : List (RKey × RModel)) :
    lookupRM k (c ++ d) = some m := by
  induction c with
  | nil => simp [lookupRM] at h
  | cons kv rest ih =>
    by_cases hk : kv.1 = k
    · simp [lookupRM, hk] at h ⊢; exact h
    · simp [lookupRM, hk] at h ⊢; exact ih h

lemma cacheExt_append (c d : List (RKey × RModel)) : cacheExt c (c ++ d) :=
  fun _ m h => lookupRM_append_left h d

lemma lookupRM_append_self {c : List (RKey × RModel)} {k : RKey}
    (h : lookupRM k c = none) (m : RModel) :
    lookupRM k (c ++ [(k, m)]) = some m := by
  induction c with
  | nil => simp [lookupRM]
  | cons kv rest ih =>
    by_cases hk : kv.1 = k
    · simp [lookupRM, hk] at h
    · simp [lookupRM, hk] at h ⊢; exact ih h

lemma baseEq_refl (σ : MState) : baseEq σ σ := ⟨rfl, rfl, rfl⟩

lemma baseEq_trans {a b c : MState} (h1 : baseEq a b) (h2 : baseEq b c) : baseEq a c :=
  ⟨h2.1.trans h1.1, h2.2.1.trans h1.2.1, h2.2.2.trans h1.2.2⟩

lemma coreEq_refl (σ : MState) : coreEq σ σ := ⟨rfl, baseEq_refl σ⟩

lemma coreEq_trans {a b c : MState} (h1 : coreEq a b) (h2 : coreEq b c) : coreEq a c :=
  ⟨h2.1.trans h1.1, baseEq_trans h1.2 h2.2⟩

lemma gom_lookup (env : Env) (a : Alias) (σ : MState) :
    lookupRM (rkey a) (get_or_measure env a σ).2.resource_models =
      some (get_or_measure env a σ).1 := by
  unfold get_or_measure
  cases h : lookupRM (rkey a) σ.resource_models with
  | some m => simp [h]
  | none => simpa [h] using lookupRM_append_self h _

lemma gom_ext (env : Env) (a : Alias) (σ : MState) :
    cacheExt σ.resource_models (get_or_measure env a σ).2.resource_models := by
  unfold get_or_measure
  cases h : lookupRM (rkey a) σ.resource_models with
  | some m => simpa [h] using cacheExt_refl _
  | none => simpa [h] using cacheExt_append _ _

lemma gom_core (env : Env) (a : Alias) (σ : MState) :
    coreEq σ (get_or_measure env a σ).2 := by
  unfold get_or_measure
  cases h : lookupRM (rkey a) σ.resource_models with
  | some m => simpa [h] using coreEq_refl σ
  | none => exact ⟨by simp [h], by simp [h, baseEq]⟩

lemma gom_log (env : Env) (a : Alias) (σ : MState) :
    (get_or_measure env a σ).2.evicted_log = σ.evicted_log := by
  unfold get_or_measure
  cases h : lookupRM (rkey a) σ.resource_models with
  | some m => simp [h]
  | none => simp [h]

/-! ### Lemmas: predicted sums -/

lemma sumAliveR_cons (c : List (RKey × RModel)) (s : Srv) (l : List Srv) :
    sumAliveR c (s :: l) = (if s.alive then predAtR c s else 0) + sumAliveR c l := by
  simp [sumAliveR]

lemma sumAliveV_cons (c : List (RKey × RModel)) (s : Srv) (l : List Srv) :
    sumAliveV c (s :: l) = (if s.alive then predAtV c s else 0) + sumAliveV c l := by
  simp [sumAliveV]

lemma sumAliveR_append (c : List (RKey × RModel)) (l1 l2 : List Srv) :
    sumAliveR c (l1 ++ l2) = sumAliveR c l1 + sumAliveR c l2 := by
  simp [sumAliveR]

lemma sumAliveV_append (c : List (RKey × RModel)) (l1 l2 : List Srv) :
    sumAliveV c (l1 ++ l2) = sumAliveV c l1 + sumAliveV c l2 := by
  simp [sumAliveV]

lemma predAtR_ext {c c' : List (RKey × RModel)} (h : cacheExt c c') {s : Srv}
    (hs : (lookupRM (rkey s.alias_) c).isSome) : predAtR c' s = predAtR c s := by
  cases hl : lookupRM (rkey s.alias_) c with
  | none => rw [hl] at hs; cases hs
  | some m => simp [predAtR, hl, h _ _ hl]

lemma predAtV_ext {c c' : List (RKey × RModel)} (h : cacheExt c c') {s : Srv}
    (hs : (lookupRM (rkey s.alias_) c).isSome) : predAtV c' s = predAtV c s := by
  cases hl : lookupRM (rkey s.alias_) c with
  | none => rw [hl] at hs; cases hs
  | some m => simp [predAtV, hl, h _ _ hl]

lemma sumAliveR_ext {c c' : List (RKey × RModel)} (h : cacheExt c c') {l : List Srv}
    (hc : ∀ s ∈ l, s.alive = true → (lookupRM (rkey s.alias_) c).isSome) :
    sumAliveR c' l = sumAliveR c l := by
  induction l with
  | nil => simp [sumAliveR]
  | cons s rest ih =>
    rw [sumAliveR_cons, sumAliveR_cons,
      ih fun t ht hta => hc t (List.mem_cons_of_mem s ht) hta]
    cases ha : s.alive with
    | false => simp
    | true => simp [predAtR_ext h (hc s (List.mem_cons_self s rest) ha)]

lemma sumAliveV_ext {c c' : List (RKey × RModel)} (h : cacheExt c c') {l : List Srv}
    (hc : ∀ s ∈ l, s.alive = true → (lookupRM (rkey s.alias_) c).isSome) :
    sumAliveV c' l = sumAliveV c l := by
  induction l with
  | nil => simp [sumAliveV]
  | cons s rest ih =>
    rw [sumAliveV_cons, sumAliveV_cons,
      ih fun t ht hta => hc t (List.mem_cons_of_mem s ht) hta]
    cases ha : s.alive with
    | false => simp
    | true => simp [predAtV_ext h (hc s (List.mem_cons_self s rest) ha)]

/-! ### Lemmas: the usage walk -/

/-- What `get_current_usage`'s loop computes: the state keeps its servers
and totals, the cache only grows, every live walked server ends up cached,
and the two accumulators advance by exactly the predicted sums of the
walked servers, read off the final cache. -/
lemma usageGo_spec (env : Env) :
    ∀ (l : List Srv) (σ : MState) (r v R V : ℚ) (σ' : MState),
      usageGo env l σ r v = (R, V, σ') →
      coreEq σ σ' ∧ cacheExt σ.resource_models σ'.resource_models ∧
        (∀ s ∈ l, s.alive = true → (lookupRM (rkey s.alias_) σ'.resource_models).isSome) ∧
        R = r + sumAliveR σ'.resource_models l ∧
        V = v + sumAliveV σ'.resource_models l := by
  intro l
  induction l with
  | nil =>
    intro σ r v R V σ' h
    simp only [usageGo, Prod.mk.injEq] at h
    obtain ⟨hR, hV, hσ⟩ := h
    subst hσ
    exact ⟨coreEq_refl σ, cacheExt_refl _, by simp, by simp [sumAliveR, hR.symm],
      by simp [sumAliveV, hV.symm]⟩
  | cons s rest ih =>
    intro σ r v R V σ' h
    rw [usageGo] at h
    cases ha : s.alive with
    | false =>
      rw [ha] at h
      simp only [Bool.false_eq_true, if_false] at h
      obtain ⟨hcore, hext, hcached, hR, hV⟩ := ih σ r v R V σ' h
      refine ⟨hcore, hext, ?_, ?_, ?_⟩
      · intro t ht hta
        rcases List.mem_cons.mp ht with rfl | ht'
        · rw [ha] at hta; cases hta
        · exact hcached t ht' hta
      · rw [hR, sumAliveR_cons, ha]; simp
      · rw [hV, sumAliveV_cons, ha]; simp
    | true =>
      rw [ha] at h
      simp only [if_true] at h
      obtain ⟨hcore, hext, hcached, hR, hV⟩ :=
        ih (get_or_measure env s.alias_ σ).2 _ _ R V σ' h
      have hlook : lookupRM (rkey s.alias_) σ'.resource_models =
          some (get_or_measure env s.alias_ σ).1 :=
        hext _ _ (gom_lookup env s.alias_ σ)
      have hpR : predAtR σ'.resource_models s =
          predR (get_or_measure env s.alias_ σ).1 s.alias_.n_ctx := by
        simp [predAtR, hlook]
      have hpV : predAtV σ'.resource_models s =
          predV (get_or_measure env s.alias_ σ).1 s.alias_.n_ctx := by
        simp [predAtV, hlook]
      refine ⟨coreEq_trans (gom_core env s.alias_ σ) hcore,
        cacheExt_trans (gom_ext env s.alias_ σ) hext, ?_, ?_, ?_⟩
      · intro t ht hta
        rcases List.mem_cons.mp ht with rfl | ht'
        · rw [hlook]; rfl
        · exact hcached t ht' hta
      · rw [hR, sumAliveR_cons, ha, hpR]; simp; ring
      · rw [hV, sumAliveV_cons, ha, hpV]; simp; ring

/-- `get_current_usage` in terms of the walk. -/
lemma usage_spec (env : Env) (σ : MState) {R V : ℚ} {σ' : MState}
    (h : get_current_usage env σ = (R, V, σ')) :
    coreEq σ σ' ∧ cacheExt σ.resource_models σ'.resource_models ∧
      (∀ s ∈ σ'.running_servers, s.alive = true →
        (lookupRM (rkey s.alias_) σ'.resource_models).isSome) ∧
      R = sumAliveR σ'.resource_models σ'.running_servers ∧
      V = sumAliveV σ'.resource_models σ'.running_servers := by
  obtain ⟨hcore, hext, hcached, hR, hV⟩ := usageGo_spec env σ.running_servers σ 0 0 R V σ' h
  rw [hcore.1]
  exact ⟨hcore, hext, hcached, by simpa using hR, by simpa using hV⟩

/-! ### Lemmas: candidates, sorting, greedy selection -/

lemma candGo_spec (env : Env) (dR dV : ℚ) :
    ∀ (l : List Srv) (σ : MState) (cands : List Cand) (σ' : MState),
      candGo env dR dV l σ = (cands, σ') →
      coreEq σ σ' ∧ cacheExt σ.resource_models σ'.resource_models ∧
        ∀ c ∈ cands, c.R = predAtR σ'.resource_models c.srv ∧
          c.V = predAtV σ'.resource_models c.srv := by
  intro l
  induction l with
  | nil =>
    intro σ cands σ' h
    simp only [candGo, Prod.mk.injEq] at h
    obtain ⟨hc, hσ⟩ := h
    subst hσ
    exact ⟨coreEq_refl σ, cacheExt_refl _, by simp [hc.symm]⟩
  | cons s rest ih =>
    intro σ cands σ' h
    rw [candGo] at h
    by_cases hst : s.status = ServerStatus.running
    · rw [if_pos hst] at h
      simp only [Prod.mk.injEq] at h
      obtain ⟨hc, hσ⟩ := h
      obtain ⟨hcore, hext, hvals⟩ :=
        ih (get_or_measure env s.alias_ σ).2 _ _
          (Prod.mk.eta (p := candGo env dR dV rest (get_or_measure env s.alias_ σ).2)).symm
      subst hσ
      have hlook : lookupRM (rkey s.alias_)
            (candGo env dR dV rest (get_or_measure env s.alias_ σ).2).2.resource_models =
          some (get_or_measure env s.alias_ σ).1 :=
        hext _ _ (gom_lookup env s.alias_ σ)
      refine ⟨coreEq_trans (gom_core env s.alias_ σ) hcore,
        cacheExt_trans (gom_ext env s.alias_ σ) hext, ?_⟩
      intro c hcmem
      rw [← hc] at hcmem
      rcases List.mem_cons.mp hcmem with rfl | hcm
      · exact ⟨by simp [predAtR, hlook], by simp [predAtV, hlook]⟩
      · exact hvals c hcm
    · rw [if_neg hst] at h
      obtain ⟨hcore, hext, hvals⟩ := ih σ cands σ' h
      exact ⟨hcore, hext, hvals⟩

lemma candGo_nil_iff (env : Env) (dR dV : ℚ) :
    ∀ (l : List Srv) (σ : MState),
      (candGo env dR dV l σ).1 = [] ↔ ∀ s ∈ l, s.status ≠ ServerStatus.running := by
  intro l
  induction l with
  | nil => intro σ; simp [candGo]
  | cons s rest ih =>
    intro σ
    rw [candGo]
    by_cases hst : s.status = ServerStatus.running
    · simp [if_pos hst, hst]
    · simp only [if_neg hst]
      rw [ih σ]
      constructor
      · intro hall t ht
        rcases List.mem_cons.mp ht with rfl | ht'
        · exact hst
        · exact hall t ht'
      · intro hall t ht
        exact hall t (List.mem_cons_of_mem s ht)

lemma insDesc_perm (c : Cand) (l : List Cand) : (insDesc c l).Perm (c :: l) := by
  induction l with
  | nil => simp [insDesc]
  | cons d ds ih =>
    rw [insDesc]
    by_cases hw : d.w < c.w
    · simp [if_pos hw]
    · rw [if_neg hw]
      exact (ih.cons d).trans (List.Perm.swap c d ds)

lemma sortDesc_perm (l : List Cand) : (sortDesc l).Perm l := by
  induction l with
  | nil => simp [sortDesc]
  | cons c cs ih => exact (insDesc_perm c (sortDesc cs)).trans (ih.cons c)

lemma selGo_sub (dR dV : ℚ) :
    ∀ (cs : List Cand) (Rt Vt : ℚ), ∀ c ∈ selGo dR dV cs Rt Vt, c ∈ cs := by
  intro cs
  induction cs with
  | nil => intro Rt Vt c hc; simp [selGo] at hc
  | cons d ds ih =>
    intro Rt Vt c hc
    rw [selGo] at hc
    by_cases hbr : dR ≤ Rt + d.R ∧ dV ≤ Vt + d.V
    · rw [if_pos hbr] at hc
      simp only [List.mem_singleton] at hc
      exact hc ▸ List.mem_cons_self d ds
    · rw [if_neg hbr] at hc
      rcases List.mem_cons.mp hc with rfl | hc'
      · exact List.mem_cons_self c ds
      · exact List.mem_cons_of_mem d (ih _ _ c hc')

lemma selGo_nil_iff (dR dV : ℚ) (cs : List Cand) (Rt Vt : ℚ) :
    selGo dR dV cs Rt Vt = [] ↔ cs = [] := by
  cases cs with
  | nil => simp [selGo]
  | cons d ds =>
    rw [selGo]
    by_cases hbr : dR ≤ Rt + d.R ∧ dV ≤ Vt + d.V
    · simp [if_pos hbr]
    · simp [if_neg hbr]

/-- The greedy loop never selects past the point where both thresholds are
already met: before each selected candidate, the accumulated totals still
fall short of at least one deficit. -/
lemma selGo_take (dR dV : ℚ) :
    ∀ (cs : List Cand) (Rt Vt : ℚ), ¬(dR ≤ Rt ∧ dV ≤ Vt) →
      ∀ k < (selGo dR dV cs Rt Vt).length,
        ¬(dR ≤ Rt + sumCR ((selGo dR dV cs Rt Vt).take k) ∧
          dV ≤ Vt + sumCV ((selGo dR dV cs Rt Vt).take k)) := by
  intro cs
  induction cs with
  | nil => intro Rt Vt hpre k hk; simp [selGo] at hk
  | cons d ds ih =>
    intro Rt Vt hpre k hk
    rw [selGo] at hk ⊢
    by_cases hbr : dR ≤ Rt + d.R ∧ dV ≤ Vt + d.V
    · rw [if_pos hbr] at hk ⊢
      have hk0 : k = 0 := Nat.lt_one_iff.mp (by simpa using hk)
      subst hk0
      simpa [sumCR, sumCV] using hpre
    · rw [if_neg hbr] at hk ⊢
      cases k with
      | zero => simpa [sumCR, sumCV] using hpre
      | succ j =>
        have hj : j < (selGo dR dV ds (Rt + d.R) (Vt + d.V)).length := by
          simpa using hk
        have := ih (Rt + d.R) (Vt + d.V) hbr j hj
        intro hcon
        apply this
        constructor
        · have := hcon.1
          rw [List.take_succ_cons, sumCR] at this
          simp only [List.map_cons, List.sum_cons] at this
          rw [sumCR]; linarith
        · have := hcon.2
          rw [List.take_succ_cons, sumCV] at this
          simp only [List.map_cons, List.sum_cons] at this
          rw [sumCV]; linarith

/-- When the accumulated RAM cannot reach the deficit even after the whole
list (contributions being non-negative), the loop selects everything. -/
lemma selGo_all_R (dR dV : ℚ) :
    ∀ (cs : List Cand) (Rt Vt : ℚ), (∀ c ∈ cs, 0 ≤ c.R) →
      Rt + sumCR cs < dR → selGo dR dV cs Rt Vt = cs := by
  intro cs
  induction cs with
  | nil => intro Rt Vt _ _; simp [selGo]
  | cons d ds ih =>
    intro Rt Vt hnn hlt
    rw [selGo]
    have hsum : 0 ≤ sumCR ds :=
      List.sum_nonneg (by
        intro x hx
        obtain ⟨c, hc, rfl⟩ := List.mem_map.mp hx
        exact hnn c (List.mem_cons_of_mem d hc))
    have hcons : sumCR (d :: ds) = d.R + sumCR ds := by
      simp [sumCR]
    have hR : ¬ dR ≤ Rt + d.R := by
      rw [hcons] at hlt; linarith
    rw [if_neg (by intro hcon; exact hR hcon.1)]
    rw [ih (Rt + d.R) (Vt + d.V) (fun c hc => hnn c (List.mem_cons_of_mem d hc))
      (by rw [hcons] at hlt; linarith)]

/-- Mirror of `selGo_all_R` for the VRAM deficit. -/
lemma selGo_all_V (dR dV : ℚ) :
    ∀ (cs : List Cand) (Rt Vt : ℚ), (∀ c ∈ cs, 0 ≤ c.V) →
      Vt + sumCV cs < dV → selGo dR dV cs Rt Vt = cs := by
  intro cs
  induction cs with
  | nil => intro Rt Vt _ _; simp [selGo]
  | cons d ds ih =>
    intro Rt Vt hnn hlt
    rw [selGo]
    have hsum : 0 ≤ sumCV ds :=
      List.sum_nonneg (by
        intro x hx
        obtain ⟨c, hc, rfl⟩ := List.mem_map.mp hx
        exact hnn c (List.mem_cons_of_mem d hc))
    have hcons : sumCV (d :: ds) = d.V + sumCV ds := by
      simp [sumCV]
    have hV : ¬ dV ≤ Vt + d.V := by
      rw [hcons] at hlt; linarith
    rw [if_neg (by intro hcon; exact hV hcon.2)]
    rw [ih (Rt + d.R) (Vt + d.V) (fun c hc => hnn c (List.mem_cons_of_mem d hc))
      (by rw [hcons] at hlt; linarith)]

/-! ### Lemmas: eviction -/

lemma evict_state {env : Env} {dR dV : ℚ} {σ : MState} {res : Except AdmErr (List Srv)}
    {σ' : MState} (h : evict_servers env dR dV σ = (res, σ')) :
    σ' = (candGo env dR dV σ.running_servers σ).2 := by
  unfold evict_servers at h
  by_cases he :
      (selGo dR dV (sortDesc (candGo env dR dV σ.running_servers σ).1) 0 0).isEmpty
  · rw [if_pos he] at h; exact (Prod.mk.injEq _ _ _ _ ▸ h).2.symm
  · rw [if_neg he] at h; exact (Prod.mk.injEq _ _ _ _ ▸ h).2.symm

lemma evict_frame {env : Env} {dR dV : ℚ} {σ : MState} {res : Except AdmErr (List Srv)}
    {σ' : MState} (h : evict_servers env dR dV σ = (res, σ')) :
    coreEq σ σ' ∧ cacheExt σ.resource_models σ'.resource_models := by
  rw [evict_state h]
  obtain ⟨hcore, hext, _⟩ :=
    candGo_spec env dR dV σ.running_servers σ _ _
      (Prod.mk.eta (p := candGo env dR dV σ.running_servers σ)).symm
  exact ⟨hcore, hext⟩

lemma evict_ok_servers {env : Env} {dR dV : ℚ} {σ : MState} {servers : List Srv}
    {σ' : MState} (h : evict_servers env dR dV σ = (Except.ok servers, σ')) :
    servers =
      (selGo dR dV (sortDesc (candGo env dR dV σ.running_servers σ).1) 0 0).map (·.srv) := by
  unfold evict_servers at h
  by_cases he :
      (selGo dR dV (sortDesc (candGo env dR dV σ.running_servers σ).1) 0 0).isEmpty
  · rw [if_pos he] at h; cases (Prod.mk.injEq _ _ _ _ ▸ h).1
  · rw [if_neg he] at h
    have := (Prod.mk.injEq _ _ _ _ ▸ h).1
    cases this
    rfl

lemma evictOne_cache (e : Srv) (σ : MState) :
    (evictOne e σ).resource_models = σ.resource_models := rfl

lemma evictOne_base (e : Srv) (σ : MState) : baseEq σ (evictOne e σ) := ⟨rfl, rfl, rfl⟩

lemma evictFold_cache :
    ∀ (es : List Srv) (σ : MState),
      ((es.foldl (fun st e => evictOne e st) σ).resource_models = σ.resource_models) ∧
        baseEq σ (es.foldl (fun st e => evictOne e st) σ) := by
  intro es
  induction es with
  | nil => intro σ; exact ⟨rfl, baseEq_refl σ⟩
  | cons e rest ih =>
    intro σ
    obtain ⟨hc, hb⟩ := ih (evictOne e σ)
    exact ⟨hc.trans (evictOne_cache e σ), baseEq_trans (evictOne_base e σ) hb⟩

lemma stopSrv_idem (t : Srv) : stopSrv (stopSrv t) = stopSrv t := rfl

lemma removeFirst_mem {a : Alias} :
    ∀ {l : List Srv} {t : Srv}, t ∈ removeFirstByAlias a l → t ∈ l := by
  intro l
  induction l with
  | nil => intro t ht; simp [removeFirstByAlias] at ht
  | cons s rest ih =>
    intro t ht
    rw [removeFirstByAlias] at ht
    by_cases hs : s.alias_ = a
    · rw [if_pos hs] at ht; exact List.mem_cons_of_mem s ht
    · rw [if_neg hs] at ht
      rcases List.mem_cons.mp ht with rfl | ht'
      · exact List.mem_cons_self t rest
      · exact List.mem_cons_of_mem s (ih ht')

/-- Everything tracked after one eviction iteration is an original tracked
server, possibly stopped in place. -/
lemma evictOne_mem {e : Srv} {σ : MState} {t : Srv}
    (ht : t ∈ (evictOne e σ).running_servers) :
    ∃ t0 ∈ σ.running_servers, t = t0 ∨ t = stopSrv t0 := by
  unfold evictOne stopInList at ht
  simp only [List.mem_map] at ht
  obtain ⟨t0, ht0, heq⟩ := ht
  refine ⟨t0, removeFirst_mem ht0, ?_⟩
  by_cases hid : t0.id = e.id
  · right; rw [← heq, if_pos hid]
  · left; rw [← heq, if_neg hid]

lemma evictFold_mem :
    ∀ (es : List Srv) (σ : MState) (t : Srv),
      t ∈ (es.foldl (fun st e => evictOne e st) σ).running_servers →
      ∃ t0 ∈ σ.running_servers, t = t0 ∨ t = stopSrv t0 := by
  intro es
  induction es with
  | nil => intro σ t ht; exact ⟨t, ht, Or.inl rfl⟩
  | cons e rest ih =>
    intro σ t ht
    obtain ⟨t1, ht1, hw1⟩ := ih (evictOne e σ) t ht
    obtain ⟨t0, ht0, hw0⟩ := evictOne_mem ht1
    refine ⟨t0, ht0, ?_⟩
    rcases hw1 with rfl | rfl
    · exact hw0
    · rcases hw0 with rfl | rfl
      · exact Or.inr rfl
      · exact Or.inr (stopSrv_idem t0)

/-! ### Lemmas: the resource gate -/

/-- When `get_or_start_server`'s resource gate succeeds, the final state has
room for the declared needs on top of the predicted usage of its (possibly
shrunk) running list; totals and the id counter survive, the cache only
grows, every live tracked server is cached, and every tracked server is an
originally tracked one, possibly stopped in place. -/
lemma ensure_none_spec {env : Env} {Rn Vn : ℚ} {σ σ' : MState}
    (h : ensureResources env Rn Vn σ = (none, σ')) :
    baseEq σ σ' ∧ cacheExt σ.resource_models σ'.resource_models ∧
      (∀ t ∈ σ'.running_servers, ∃ t0 ∈ σ.running_servers, t = t0 ∨ t = stopSrv t0) ∧
      (∀ s ∈ σ'.running_servers, s.alive = true →
        (lookupRM (rkey s.alias_) σ'.resource_models).isSome) ∧
      sumAliveR σ'.resource_models σ'.running_servers + Rn ≤ σ'.total_ram_mb ∧
      sumAliveV σ'.resource_models σ'.running_servers + Vn ≤ σ'.total_vram_mb := by
  unfold ensureResources at h
  rcases hu : get_current_usage env σ with ⟨R1, V1, σ2⟩
  obtain ⟨hcore2, hext2, hcached2, hR1, hV1⟩ := usage_spec env σ hu
  simp only [hu] at h
  by_cases hneed : σ2.total_ram_mb - R1 < Rn ∨ σ2.total_vram_mb - V1 < Vn
  · rw [if_pos hneed] at h
    rcases hev : evict_servers env (Rn - (σ2.total_ram_mb - R1))
        (Vn - (σ2.total_vram_mb - V1)) σ2 with ⟨res, σ3⟩
    rw [hev] at h
    obtain ⟨hcore3, hext3⟩ := evict_frame hev
    cases res with
    | error e => simp at h
    | ok evicted =>
      simp only at h
      rcases hu2 : get_current_usage env
          (evicted.foldl (fun st e => evictOne e st) σ3) with ⟨R2, V2, σ5⟩
      obtain ⟨hcore5, hext5, hcached5, hR2, hV2⟩ := usage_spec env _ hu2
      simp only [hu2] at h
      by_cases hneed2 : σ5.total_ram_mb - R2 < Rn ∨ σ5.total_vram_mb - V2 < Vn
      · rw [if_pos hneed2] at h; simp at h
      · rw [if_neg hneed2] at h
        obtain ⟨-, hσ⟩ := Prod.mk.injEq _ _ _ _ ▸ h
        subst hσ
        push_neg at hneed2
        obtain ⟨hfold_cache, hfold_base⟩ :=
          evictFold_cache evicted σ3
        refine ⟨?_, ?_, ?_, hcached5, ?_, ?_⟩
        · exact baseEq_trans hcore2.2
            (baseEq_trans hcore3.2 (baseEq_trans hfold_base hcore5.2))
        · refine cacheExt_trans hext2 (cacheExt_trans hext3 ?_)
          rw [← hfold_cache]
          exact hext5
        · intro t ht
          rw [hcore5.1] at ht
          obtain ⟨t0, ht0, hw⟩ := evictFold_mem evicted σ3 t ht
          rw [hcore3.1, hcore2.1] at ht0
          exact ⟨t0, ht0, hw⟩
        · rw [← hR2]; linarith [hneed2.1]
        · rw [← hV2]; linarith [hneed2.2]
  · rw [if_neg hneed] at h
    obtain ⟨-, hσ⟩ := Prod.mk.injEq _ _ _ _ ▸ h
    subst hσ
    push_neg at hneed
    refine ⟨hcore2.2, hext2, ?_, hcached2, ?_, ?_⟩
    · intro t ht
      rw [hcore2.1] at ht
      exact ⟨t, ht, Or.inl rfl⟩
    · rw [← hR1]; linarith [hneed.1]
    · rw [← hV1]; linarith [hneed.2]

/-! ### Lemmas: the admission entry point -/

/-- A successful admission either reuses the first live compatible server
with the state untouched, or passes the resource gate and appends a freshly
spawned live server on a freshly allocated port. -/
lemma admission_ok_cases {env : Env} {a : Alias} {σ : MState} {s' : Srv} {σf : MState}
    (h : get_or_start_server env a σ = (Except.ok s', σf)) :
    (σ.running_servers.find? (fun s => s.alive && is_compatible a s.alias_) = some s' ∧
      σf = σ) ∨
    (σ.running_servers.find? (fun s => s.alive && is_compatible a s.alias_) = none ∧
      ∃ σ2 port,
        ensureResources env (predR (get_or_measure env a σ).1 a.n_ctx)
            (predV (get_or_measure env a σ).1 a.n_ctx)
            (get_or_measure env a σ).2 = (none, σ2) ∧
        get_free_port env σ2 a.model.backend = some port ∧
        s' = { id := σ2.nextId, alias_ := a, port := port,
               status := ServerStatus.running, alive := true } ∧
        σf = { σ2 with running_servers := σ2.running_servers ++ [s']
                       nextId := σ2.nextId + 1 }) := by
  unfold get_or_start_server at h
  cases hf : σ.running_servers.find? (fun s => s.alive && is_compatible a s.alias_) with
  | some s =>
    rw [hf] at h
    obtain ⟨h1, h2⟩ := Prod.mk.injEq _ _ _ _ ▸ h
    cases h1
    exact Or.inl ⟨rfl, h2.symm⟩
  | none =>
    rw [hf] at h
    simp only at h
    rcases hens : ensureResources env (predR (get_or_measure env a σ).1 a.n_ctx)
        (predV (get_or_measure env a σ).1 a.n_ctx) (get_or_measure env a σ).2 with ⟨o, σ2⟩
    rw [hens] at h
    cases o with
    | some e => simp at h
    | none =>
      simp only at h
      cases hp : get_free_port env σ2 a.model.backend with
      | none => rw [hp] at h; simp at h
      | some port =>
        rw [hp] at h
        simp only [Prod.mk.injEq, Except.ok.injEq] at h
        refine Or.inr ⟨rfl, σ2, port, ?_, ?_, ?_, ?_⟩
        · exact rfl
        · exact hp
        · exact h.1.symm
        · rw [← h.2, h.1]

/-- C1.  For every alias whose admission via `get_or_start_server` returns
successfully, afterwards the sum over tracked running servers of predicted
RAM (`r0 + r1 * n_ctx` from the server's own resource model) is at most
`total_ram_mb`, and likewise for VRAM against `total_vram_mb` (invariant
I4): admission preserves I4 on the reuse path and establishes it outright on
the spawn path. -/
theorem admission_preserves_I4 (env : Env) (a : Alias) (σ : MState) (s' : Srv)
    (σf : MState) (h : get_or_start_server env a σ = (Except.ok s', σf))
    (hI4 : I4 σ) : I4 σf := by
  rcases admission_ok_cases h with ⟨-, rfl⟩ | ⟨-, σ2, port, hens, -, hs', hσf⟩
  · exact hI4
  · obtain ⟨hbase, hext, -, hcached, hRbound, hVbound⟩ := ensure_none_spec hens
    have hlook : lookupRM (rkey a) σ2.resource_models = some (get_or_measure env a σ).1 :=
      hext _ _ (gom_lookup env a σ)
    subst hσf
    have hrm : ({ σ2 with running_servers := σ2.running_servers ++ [s']
                          nextId := σ2.nextId + 1 } : MState).resource_models =
        σ2.resource_models := rfl
    constructor
    · show sumAliveR σ2.resource_models (σ2.running_servers ++ [s']) ≤ σ2.total_ram_mb
      rw [sumAliveR_append]
      have hone : sumAliveR σ2.resource_models [s'] =
          predR (get_or_measure env a σ).1 a.n_ctx := by
        rw [hs']
        simp [sumAliveR, predAtR, hlook]
      rw [hone]
      exact hRbound
    · show sumAliveV σ2.resource_models (σ2.running_servers ++ [s']) ≤ σ2.total_vram_mb
      rw [sumAliveV_append]
      have hone : sumAliveV σ2.resource_models [s'] =
          predV (get_or_measure env a σ).1 a.n_ctx := by
        rw [hs']
        simp [sumAliveV, predAtV, hlook]
      rw [hone]
      exact hVbound

/-! ### Claims C1 and C2 continued: reuse idempotence -/

lemma is_compatible_self (a : Alias) : is_compatible a a = true := by
  simp [is_compatible]

lemma find?_append_false {p : Srv → Bool} :
    ∀ {l1 : List Srv}, (∀ t ∈ l1, p t = false) → ∀ l2 : List Srv,
      List.find? p (l1 ++ l2) = List.find? p l2 := by
  intro l1
  induction l1 with
  | nil => intro _ l2; simp
  | cons t ts ih =>
    intro h l2
    rw [List.cons_append, List.find?_cons_of_neg _ (by simp [h t (List.mem_cons_self t ts)])]
    exact ih (fun u hu => h u (List.mem_cons_of_mem t hu)) l2

/-- C1 witness: a concrete manager holding one live measured server inside
its budget admits the same alias again; the theorem re-derives invariant I4
at the returned state. -/
theorem admission_preserves_I4_witness : I4 σE1 :=
  admission_preserves_I4 envW aliasW σE1 srvW σE1
    (by norm_num [get_or_start_server, σE1, srvW, aliasW, modelW, is_compatible,
      List.find?])
    (by norm_num [I4, σE1, sumAliveR, sumAliveV, predAtR, predAtV, srvW, aliasW,
      modelW, rkey, lookupRM, predR, predV])

/-- C2.  Admission is idempotent per alias: if a call returns server `s` in
state `σ'`, calling again with the same alias returns the very same server
object with the state unchanged — hence no second spawn, no eviction and no
resource-model measurement happen on the repeated call, and by induction
every later call returns `s` as long as it stays live. -/
theorem reuse_idempotent (env : Env) (a : Alias) (σ σ' : MState) (s : Srv)
    (h : get_or_start_server env a σ = (Except.ok s, σ')) :
    get_or_start_server env a σ' = (Except.ok s, σ') := by
  rcases admission_ok_cases h with ⟨hf, rfl⟩ | ⟨hf, σ2, port, hens, hp, hs', hσf⟩
  · unfold get_or_start_server
    rw [hf]
  · obtain ⟨hbase, hext, hweak, hcached, hRb, hVb⟩ := ensure_none_spec hens
    have hnone : ∀ t ∈ σ.running_servers, (t.alive && is_compatible a t.alias_) = false := by
      intro t ht
      have := List.find?_eq_none.mp hf t ht
      simpa using this
    have hσ2run : ∀ t ∈ σ2.running_servers,
        (t.alive && is_compatible a t.alias_) = false := by
      intro t ht
      obtain ⟨t0, ht0, hw⟩ := hweak t ht
      have ht0' : t0 ∈ σ.running_servers := by
        rw [← (gom_core env a σ).1]; exact ht0
      rcases hw with h1 | h1
      · rw [h1]; exact hnone t0 ht0'
      · rw [h1]; simp [stopSrv]
    have hps : (s.alive && is_compatible a s.alias_) = true := by
      rw [hs']; simp [is_compatible_self]
    have hfind : σ'.running_servers.find? (fun t => t.alive && is_compatible a t.alias_) =
        some s := by
      rw [hσf]
      show List.find? _ (σ2.running_servers ++ [s]) = some s
      rw [find?_append_false hσ2run [s]]
      simp [List.find?, hps]
    unfold get_or_start_server
    rw [hfind]

/-- C2 witness: after admitting `aliasW` into the empty manager (a spawn),
the repeated admission returns the same server object and leaves the state
untouched. -/
theorem reuse_idempotent_witness :
    get_or_start_server envW aliasW σE1 = (Except.ok srvW, σE1) :=
  reuse_idempotent envW aliasW σE σE1 srvW
    (by norm_num [get_or_start_server, ensureResources, get_or_measure,
      get_current_usage, usageGo, lookupRM, get_free_port, portScanFrom, defaultPort,
      envW, σE, σE1, aliasW, modelW, rkey, predR, predV, is_compatible, srvW])

/-- C3.  Against a single tracked live server for alias `a`, a request `a'`
reuses that server (same handle, state unchanged) if and only if the models
match, the command parameters match, and `a'.n_ctx ≤ a.n_ctx`; and when the
configurations match but `a'.n_ctx > a.n_ctx`, any successful admission
spawns a new server object (fresh id) instead of reusing. -/
theorem compatibility_governs_reuse (env : Env) (a a' : Alias) (s : Srv) (σ : MState)
    (hrun : σ.running_servers = [s]) (halive : s.alive = true) (halias : s.alias_ = a) :
    (get_or_start_server env a' σ = (Except.ok s, σ) ↔
      a'.model = a.model ∧ a'.command_params = a.command_params ∧ a'.n_ctx ≤ a.n_ctx) ∧
    (a'.model = a.model → a'.command_params = a.command_params → a.n_ctx < a'.n_ctx →
      ∀ s' σf, get_or_start_server env a' σ = (Except.ok s', σf) →
        s'.id = σ.nextId ∧ σf.nextId = σ.nextId + 1 ∧ (s.id ≠ σ.nextId → s' ≠ s)) := by
  constructor
  · constructor
    · intro h
      rcases admission_ok_cases h with ⟨hf, -⟩ | ⟨-, σ2, port, hens, -, -, hσf⟩
      · rw [hrun] at hf
        have hps : (s.alive && is_compatible a' s.alias_) = true := by
          cases hp : (s.alive && is_compatible a' s.alias_) with
          | true => rfl
          | false => rw [List.find?_cons_of_neg _ (by simp [hp])] at hf; cases hf
        rw [halive, halias] at hps
        simpa [is_compatible, and_assoc] using hps
      · exfalso
        have hb2 : σ2.nextId = σ.nextId := by
          have h1 := (ensure_none_spec hens).1.2.2
          have h2 := (gom_core env a' σ).2.2.2
          rw [h1, h2]
        have : σ.nextId = σ2.nextId + 1 := by
          rw [hσf]
        omega
    · rintro ⟨hm, hp, hn⟩
      have hc : is_compatible a' s.alias_ = true := by
        rw [halias]; simp [is_compatible, hm, hp, hn]
      unfold get_or_start_server
      rw [hrun]
      rw [List.find?_cons_of_pos _ (by rw [halive, hc]; rfl)]
  · intro hm hp hlt s' σf h
    rcases admission_ok_cases h with ⟨hf, -⟩ | ⟨-, σ2, port, hens, -, hs', hσf⟩
    · exfalso
      rw [hrun] at hf
      have hc : is_compatible a' s.alias_ = false := by
        rw [halias]
        simp [is_compatible, Nat.not_le.mpr hlt]
      rw [List.find?_cons_of_neg _ (by simp [hc])] at hf
      cases hf
    · have hb2 : σ2.nextId = σ.nextId := by
        have h1 := (ensure_none_spec hens).1.2.2
        have h2 := (gom_core env a' σ).2.2.2
        rw [h1, h2]
      refine ⟨by rw [hs', hb2], ?_, ?_⟩
      · rw [hσf]
        show σ2.nextId + 1 = σ.nextId + 1
        rw [hb2]
      intro hid heq
      apply hid
      rw [← heq, hs', hb2]

/-- C3 witness: a smaller-context request against the running `aliasW`
server is admitted by reuse, returning the same handle with the state
unchanged. -/
theorem compatibility_governs_reuse_witness :
    get_or_start_server envW aliasW2 σE1 = (Except.ok srvW, σE1) :=
  (compatibility_governs_reuse envW aliasW aliasW2 srvW σE1
      (by norm_num [σE1]) (by norm_num [srvW]) (by norm_num [srvW])).1.mpr
    ⟨rfl, rfl, by norm_num [aliasW, aliasW2]⟩

/-! ### Claims C4 and C5: the eviction selector -/

lemma char_pq : ('p' : Char) ≠ 'q' := by decide

lemma char_qp : ('q' : Char) ≠ 'p' := by decide

/-- C4 counterexample: with deficits `(10, 10)` and candidates
`P = (R 100, V 5)` (score 10) and `Q = (R 12, V 12)` (score 1.2), the greedy
selector picks `P` first and must then add `Q`; but `Q` alone covers both
deficits, so the returned selection contains the redundant server `P` —
refuting the claim that no selected server is unnecessary. -/
theorem eviction_minimality_cex :
    evict_servers envW 10 10 σC4 = (Except.ok [srvP, srvQ], σC4) ∧
    ¬ selectionMinimal σC4.resource_models 10 10 [srvP, srvQ] := by
  have hpq : ('p' : Char) ≠ 'q' := by decide
  have hqp : ('q' : Char) ≠ 'p' := by decide
  constructor
  · norm_num [evict_servers, candGo, get_or_measure, lookupRM, rkey, σC4, srvP, srvQ,
      aliasP, aliasQ, mP, mQ, predR, predV, sortDesc, insDesc, selGo, List.isEmpty,
      hpq, hqp]
  · intro hmin
    have h := hmin srvP (by simp)
    rw [show ([srvP, srvQ].erase srvP) = [srvQ] by rfl] at h
    rcases h with h | h <;>
      norm_num [sumPredR, sumPredV, predAtR, predAtV, lookupRM, rkey, σC4, srvP, srvQ,
        aliasP, aliasQ, mP, mQ, predR, predV, hpq, hqp] at h

lemma sumCR_as_pred {c : List (RKey × RModel)} {sel : List Cand}
    (h : ∀ x ∈ sel, x.R = predAtR c x.srv) (k : ℕ) :
    sumCR (sel.take k) = sumPredR c ((sel.map (·.srv)).take k) := by
  rw [sumCR, sumPredR, ← List.map_take, List.map_map]
  apply congrArg List.sum
  apply List.map_congr_left
  intro x hx
  exact h x (List.take_subset k sel hx)

lemma sumCV_as_pred {c : List (RKey × RModel)} {sel : List Cand}
    (h : ∀ x ∈ sel, x.V = predAtV c x.srv) (k : ℕ) :
    sumCV (sel.take k) = sumPredV c ((sel.map (·.srv)).take k) := by
  rw [sumCV, sumPredV, ← List.map_take, List.map_map]
  apply congrArg List.sum
  apply List.map_congr_left
  intro x hx
  exact h x (List.take_subset k sel hx)

/-- C4 amended.  What the greedy loop does guarantee is prefix-minimality:
whenever at least one deficit is positive (always true at the call site),
every proper prefix of the returned selection still falls short of at least
one deficit — in particular the selector never keeps selecting after both
deficits are covered, and the last selected server is necessary.  Individual
earlier servers may still be redundant (see the counterexample). -/
theorem eviction_prefix_minimal (env : Env) (dR dV : ℚ) (σ : MState)
    (servers : List Srv) (σ' : MState)
    (h : evict_servers env dR dV σ = (Except.ok servers, σ'))
    (hpos : 0 < dR ∨ 0 < dV) :
    ∀ k < servers.length,
      sumPredR σ'.resource_models (servers.take k) < dR ∨
      sumPredV σ'.resource_models (servers.take k) < dV := by
  intro k hk
  have hσ' := evict_state h
  have hsrv := evict_ok_servers h
  obtain ⟨-, -, hvals⟩ :=
    candGo_spec env dR dV σ.running_servers σ _ _
      (Prod.mk.eta (p := candGo env dR dV σ.running_servers σ)).symm
  set cands := (candGo env dR dV σ.running_servers σ).1 with hcands
  set sel := selGo dR dV (sortDesc cands) 0 0 with hsel
  have hselR : ∀ x ∈ sel, x.R = predAtR σ'.resource_models x.srv := by
    intro x hx
    have hx' : x ∈ cands :=
      (sortDesc_perm cands).mem_iff.mp (selGo_sub dR dV _ 0 0 x hx)
    rw [hσ']
    exact (hvals x hx').1
  have hselV : ∀ x ∈ sel, x.V = predAtV σ'.resource_models x.srv := by
    intro x hx
    have hx' : x ∈ cands :=
      (sortDesc_perm cands).mem_iff.mp (selGo_sub dR dV _ 0 0 x hx)
    rw [hσ']
    exact (hvals x hx').2
  have hpre : ¬(dR ≤ (0 : ℚ) ∧ dV ≤ (0 : ℚ)) := by
    rintro ⟨h1, h2⟩
    rcases hpos with h3 | h3 <;> linarith
  have hk' : k < sel.length := by
    rw [hsrv] at hk
    simpa using hk
  have htake := selGo_take dR dV (sortDesc cands) 0 0 hpre k hk'
  rw [not_and_or, not_le, not_le] at htake
  rw [hsrv]
  rcases htake with h1 | h1
  · left; rw [← sumCR_as_pred hselR k]; simpa using h1
  · right; rw [← sumCV_as_pred hselV k]; simpa using h1

/-- C4 amended witness: in the counterexample state the selection is
`[P, Q]`; the prefix `[P]` indeed still falls short of the VRAM deficit. -/
theorem eviction_prefix_minimal_witness :
    sumPredR σC4.resource_models ([srvP, srvQ].take 1) < 10 ∨
      sumPredV σC4.resource_models ([srvP, srvQ].take 1) < 10 :=
  eviction_prefix_minimal envW 10 10 σC4 [srvP, srvQ] σC4
    (by norm_num [evict_servers, candGo, get_or_measure, lookupRM, rkey, σC4, srvP, srvQ,
      aliasP, aliasQ, mP, mQ, predR, predV, sortDesc, insDesc, selGo, List.isEmpty,
      char_pq, char_qp])
    (Or.inl (by norm_num)) 1 (by norm_num)

/-- C5 counterexample: deficits `(1000, 1000)` against the single candidate
`P = (R 100, V 5)`: the traversal exhausts the list with both totals far
below the thresholds, yet `evict_servers` returns the selection `[P]`
instead of failing — `EvictionImpossible` is raised only when there are no
candidates at all. -/
theorem eviction_exhaustion_cex :
    evict_servers envW 1000 1000 σC5 = (Except.ok [srvP], σC5) ∧
    sumPredR σC5.resource_models [srvP] < 1000 ∧
    sumPredV σC5.resource_models [srvP] < 1000 := by
  refine ⟨?_, ?_, ?_⟩
  · norm_num [evict_servers, candGo, get_or_measure, lookupRM, rkey, σC5, σC4, srvP,
      aliasP, mP, predR, predV, sortDesc, insDesc, selGo, List.isEmpty]
  · norm_num [sumPredR, predAtR, lookupRM, rkey, σC5, σC4, srvP, aliasP, mP, predR]
  · norm_num [sumPredV, predAtV, lookupRM, rkey, σC5, σC4, srvP, aliasP, mP, predV]

/-- C5 amended.  `evict_servers` fails (with the `RuntimeError` modelled as
`evictionImpossible`) exactly when there is no `running`-status candidate;
when candidates exist but even the whole list cannot cover a positive
deficit (contributions being non-negative), it returns all candidates in
score order rather than failing — the caller's recheck then raises
`InfeasibleRequest`. -/
theorem eviction_error_iff_no_candidates (env : Env) (dR dV : ℚ) (σ : MState) :
    ((evict_servers env dR dV σ).1 = Except.error AdmErr.evictionImpossible ↔
      ∀ s ∈ σ.running_servers, s.status ≠ ServerStatus.running) ∧
    (∀ servers σ', evict_servers env dR dV σ = (Except.ok servers, σ') →
      (∀ c ∈ (candGo env dR dV σ.running_servers σ).1, 0 ≤ c.R ∧ 0 ≤ c.V) →
      (sumCR (candGo env dR dV σ.running_servers σ).1 < dR ∨
        sumCV (candGo env dR dV σ.running_servers σ).1 < dV) →
      servers = (sortDesc (candGo env dR dV σ.running_servers σ).1).map (·.srv)) := by
  have hdef : evict_servers env dR dV σ =
      if (selGo dR dV (sortDesc (candGo env dR dV σ.running_servers σ).1) 0 0).isEmpty
      then (Except.error AdmErr.evictionImpossible,
        (candGo env dR dV σ.running_servers σ).2)
      else
        (Except.ok
          ((selGo dR dV (sortDesc (candGo env dR dV σ.running_servers σ).1) 0 0).map
            (·.srv)),
          (candGo env dR dV σ.running_servers σ).2) := rfl
  have hnil : (selGo dR dV (sortDesc (candGo env dR dV σ.running_servers σ).1) 0 0) = []
      ↔ (candGo env dR dV σ.running_servers σ).1 = [] := by
    rw [selGo_nil_iff]
    constructor
    · intro h
      have hp := sortDesc_perm (candGo env dR dV σ.running_servers σ).1
      rw [h] at hp
      exact hp.symm.eq_nil
    · intro h; rw [h]; rfl
  constructor
  · rw [hdef]
    by_cases he :
        (selGo dR dV (sortDesc (candGo env dR dV σ.running_servers σ).1) 0 0).isEmpty
    · rw [if_pos he]
      simp only [true_iff]
      rw [List.isEmpty_iff] at he
      rw [← candGo_nil_iff env dR dV σ.running_servers σ]
      exact hnil.mp he
    · rw [if_neg he]
      simp only [reduceCtorEq, false_iff]
      intro hall
      apply he
      rw [List.isEmpty_iff, hnil]
      exact (candGo_nil_iff env dR dV σ.running_servers σ).mpr hall
  · intro servers σ' h hnn hshort
    have hsrv := evict_ok_servers h
    have hmem : ∀ c ∈ sortDesc (candGo env dR dV σ.running_servers σ).1,
        c ∈ (candGo env dR dV σ.running_servers σ).1 :=
      fun c hc => (sortDesc_perm _).mem_iff.mp hc
    have hsumR : sumCR (sortDesc (candGo env dR dV σ.running_servers σ).1) =
        sumCR (candGo env dR dV σ.running_servers σ).1 := by
      rw [sumCR, sumCR]
      exact ((sortDesc_perm _).map (·.R)).sum_eq
    have hsumV : sumCV (sortDesc (candGo env dR dV σ.running_servers σ).1) =
        sumCV (candGo env dR dV σ.running_servers σ).1 := by
      rw [sumCV, sumCV]
      exact ((sortDesc_perm _).map (·.V)).sum_eq
    have hall : selGo dR dV (sortDesc (candGo env dR dV σ.running_servers σ).1) 0 0 =
        sortDesc (candGo env dR dV σ.running_servers σ).1 := by
      rcases hshort with hs | hs
      · exact selGo_all_R dR dV _ 0 0 (fun c hc => (hnn c (hmem c hc)).1)
          (by rw [hsumR]; linarith)
      · exact selGo_all_V dR dV _ 0 0 (fun c hc => (hnn c (hmem c hc)).2)
          (by rw [hsumV]; linarith)
    rw [hsrv, hall]

/-- C5 amended witness: in the single-candidate state with oversized
deficits, the selector returns all (that is, the single) candidates instead
of raising. -/
theorem eviction_error_iff_no_candidates_witness :
    [srvP] = (sortDesc (candGo envW 1000 1000 σC5.running_servers σC5).1).map (·.srv) :=
  (eviction_error_iff_no_candidates envW 1000 1000 σC5).2 [srvP] σC5
    (by norm_num [evict_servers, candGo, get_or_measure, lookupRM, rkey, σC5, σC4, srvP,
      aliasP, mP, predR, predV, sortDesc, insDesc, selGo, List.isEmpty])
    (by
      intro c hc
      norm_num [candGo, get_or_measure, lookupRM, rkey, σC5, σC4, srvP, aliasP, mP,
        predR, predV] at hc
      rw [hc]
      norm_num)
    (by
      left
      norm_num [sumCR, candGo, get_or_measure, lookupRM, rkey, σC5, σC4, srvP, aliasP,
        mP, predR, predV])

/-! ### Claim C6: scenario S2 -/

lemma char_AB : ('A' : Char) ≠ 'B' := by decide

lemma char_BA : ('B' : Char) ≠ 'A' := by decide

/-- C6 counterexample: with totals RAM=400, VRAM=800 and the stub model
`(100, 0.1, 200, 0.2)`, admitting `A(n_ctx=3000)` succeeds (needs exactly
400/800), but `B(n_ctx=3500)` needs 450 RAM and 900 VRAM — more than the
machine totals — so the second admission evicts `A` and then fails with
`InfeasibleRequest`; `B` never runs and the running set is empty, not of
size 1. -/
theorem scenario_s2_cex :
    get_or_start_server envW aliasA6 σ6zero = (Except.ok srvA6, σ6one) ∧
    get_or_start_server envW aliasB6 σ6one = (Except.error AdmErr.infeasibleRequest, σ6two) ∧
    σ6two.running_servers = [] := by
  refine ⟨?_, ?_, rfl⟩
  · norm_num [get_or_start_server, ensureResources, get_or_measure, get_current_usage,
      usageGo, lookupRM, get_free_port, portScanFrom, defaultPort, envW, σ6zero, σ6one,
      aliasA6, modelW, rkey, predR, predV, is_compatible, srvA6]
  · norm_num [get_or_start_server, ensureResources, get_or_measure, get_current_usage,
      usageGo, lookupRM, evict_servers, candGo, sortDesc, insDesc, selGo, evictOne,
      removeFirstByAlias, stopInList, stopSrv, get_free_port, portScanFrom, defaultPort,
      envW, σ6zero, σ6one, σ6two, aliasA6, aliasB6, modelW, rkey, predR, predV,
      is_compatible, srvA6, List.isEmpty, char_AB, char_BA]

/-- C6 amended (scenario S2 as the code actually behaves): `A` is admitted
and later evicted and stopped (its `check_running` is false), but `B`'s
requirements (450 RAM, 900 VRAM) exceed the totals (400, 800), so its
admission raises `InfeasibleRequest` and the running set ends empty. -/
theorem scenario_s2_amended :
    get_or_start_server envW aliasA6 σ6zero = (Except.ok srvA6, σ6one) ∧
    get_or_start_server envW aliasB6 σ6one = (Except.error AdmErr.infeasibleRequest, σ6two) ∧
    σ6two.running_servers.length = 0 ∧
    σ6two.evicted_log = [stopSrv srvA6] ∧
    (stopSrv srvA6).alive = false ∧ (stopSrv srvA6).status = ServerStatus.stopped ∧
    predR ⟨100, 1 / 10, 200, 1 / 5⟩ aliasB6.n_ctx = 450 ∧
    predV ⟨100, 1 / 10, 200, 1 / 5⟩ aliasB6.n_ctx = 900 := by
  refine ⟨?_, ?_, rfl, rfl, rfl, rfl, ?_, ?_⟩
  · norm_num [get_or_start_server, ensureResources, get_or_measure, get_current_usage,
      usageGo, lookupRM, get_free_port, portScanFrom, defaultPort, envW, σ6zero, σ6one,
      aliasA6, modelW, rkey, predR, predV, is_compatible, srvA6]
  · norm_num [get_or_start_server, ensureResources, get_or_measure, get_current_usage,
      usageGo, lookupRM, evict_servers, candGo, sortDesc, insDesc, selGo, evictOne,
      removeFirstByAlias, stopInList, stopSrv, get_free_port, portScanFrom, defaultPort,
      envW, σ6zero, σ6one, σ6two, aliasA6, aliasB6, modelW, rkey, predR, predV,
      is_compatible, srvA6, List.isEmpty, char_AB, char_BA]
  · norm_num [predR, aliasB6]
  · norm_num [predV, aliasB6]

/-! ### Claim C7: cache persistence round-trip -/

lemma splitComma_ne_nil : ∀ s : Str, splitComma s ≠ [] := by
  intro s
  induction s with
  | nil => simp [splitComma]
  | cons c rest ih =>
    rw [splitComma]
    by_cases hc : c = ','
    · simp [hc]
    · rw [if_neg hc]
      cases h : splitComma rest with
      | nil => exact absurd h ih
      | cons p ps => simp

lemma splitComma_sep {x : Str} (h : noComma x) (r : Str) :
    splitComma (x ++ ',' :: r) = x :: splitComma r := by
  induction x with
  | nil => simp [splitComma]
  | cons c x' ih =>
    have hc : c ≠ ',' := h c (List.mem_cons_self c x')
    rw [List.cons_append, splitComma, if_neg hc,
      ih fun ch hch => h ch (List.mem_cons_of_mem c hch)]

lemma splitComma_pure {x : Str} (h : noComma x) : splitComma x = [x] := by
  induction x with
  | nil => rfl
  | cons c x' ih =>
    have hc : c ≠ ',' := h c (List.mem_cons_self c x')
    rw [splitComma, if_neg hc, ih fun ch hch => h ch (List.mem_cons_of_mem c hch)]

lemma splitCC_ne_nil : ∀ s : Str, splitCC s ≠ [] := by
  intro s
  induction s with
  | nil => simp [splitCC]
  | cons c1 tail ih =>
    cases tail with
    | nil => simp [splitCC]
    | cons c2 rest =>
      rw [splitCC]
      by_cases h : c1 = ':' ∧ c2 = ':'
      · simp [h]
      · rw [if_neg h]
        cases hs : splitCC (c2 :: rest) with
        | nil => exact absurd hs ih
        | cons p ps => simp

lemma splitCC_sep {a : Str} (h : noColon a) (s : Str) :
    splitCC (a ++ ':' :: ':' :: s) = a :: splitCC s := by
  induction a with
  | nil =>
    rw [List.nil_append, splitCC, if_pos ⟨rfl, rfl⟩]
  | cons c a' ih =>
    have hc : c ≠ ':' := h c (List.mem_cons_self c a')
    have ih' := ih fun ch hch => h ch (List.mem_cons_of_mem c hch)
    cases a' with
    | nil =>
      rw [List.cons_append, List.nil_append, splitCC,
        if_neg (by rintro ⟨h1, -⟩; exact hc h1)]
      rw [List.nil_append] at ih'
      rw [ih']
    | cons d a'' =>
      rw [List.cons_append, List.cons_append, splitCC,
        if_neg (by rintro ⟨h1, -⟩; exact hc h1)]
      rw [List.cons_append] at ih'
      rw [ih']

lemma splitCC_pure {a : Str} (h : noColon a) : splitCC a = [a] := by
  induction a with
  | nil => rfl
  | cons c tail ih =>
    have hc : c ≠ ':' := h c (List.mem_cons_self c tail)
    have ih' := ih fun ch hch => h ch (List.mem_cons_of_mem c hch)
    cases tail with
    | nil => rfl
    | cons c2 rest =>
      rw [splitCC, if_neg (by rintro ⟨h1, -⟩; exact hc h1), ih']

lemma joinComma_noColon {ps : List Str} (h : ∀ p ∈ ps, noColon p) :
    noColon (joinComma ps) := by
  induction ps with
  | nil => intro ch hch; cases hch
  | cons x ps' ih =>
    cases ps' with
    | nil => exact h x (List.mem_cons_self x [])
    | cons y ys =>
      rw [joinComma]
      intro ch hch
      rcases List.mem_append.mp hch with hx | hy
      · exact h x (List.mem_cons_self x (y :: ys)) ch hx
      · rcases List.mem_cons.mp hy with rfl | hy'
        · decide
        · exact ih (fun p hp => h p (List.mem_cons_of_mem x hp)) ch hy'

lemma splitComma_joinComma {ps : List Str} (hne : ps ≠ [])
    (h : ∀ p ∈ ps, noComma p) : splitComma (joinComma ps) = ps := by
  induction ps with
  | nil => exact absurd rfl hne
  | cons x ps' ih =>
    cases ps' with
    | nil => exact splitComma_pure (h x (List.mem_cons_self x []))
    | cons y ys =>
      rw [joinComma, splitComma_sep (h x (List.mem_cons_self x (y :: ys))),
        ih (by simp) fun p hp => h p (List.mem_cons_of_mem x hp)]

lemma backendStr_noColon (b : Backend) : noColon (backendStr b) := by
  cases b <;> decide

lemma parseBackend_backendStr (b : Backend) : parseBackend (backendStr b) = some b := by
  cases b <;> decide

lemma decode_encode {k : RKey} (h : cleanKey k) : decodeKey (encodeKey k) = some k := by
  obtain ⟨b, n, ps⟩ := k
  obtain ⟨hn, hp, hne⟩ := h
  have hsplit : splitCC (encodeKey (b, n, ps)) = [backendStr b, n, joinComma ps] := by
    rw [encodeKey]
    rw [splitCC_sep (backendStr_noColon b)]
    rw [splitCC_sep hn]
    rw [splitCC_pure (joinComma_noColon fun p hp' => (hp p hp').1)]
  rw [decodeKey, hsplit]
  simp only [parseBackend_backendStr]
  cases ps with
  | nil => simp [joinComma]
  | cons x xs =>
    have hjne : joinComma (x :: xs) ≠ [] := by
      cases xs with
      | nil =>
        rw [joinComma]
        intro hx
        exact hne (by rw [hx])
      | cons y ys => simp [joinComma]
    rw [if_neg hjne]
    rw [splitComma_joinComma (by simp) fun p hp' => (hp p hp').2]

lemma keys_cons {α β : Type} (kv : α × β) (l : List (α × β)) :
    keys (kv :: l) = kv.1 :: keys l := rfl

lemma dictInsert_fresh {α β : Type} [DecidableEq α] {k : α} :
    ∀ {l : List (α × β)}, k ∉ keys l → ∀ v : β, dictInsert k v l = l ++ [(k, v)] := by
  intro l
  induction l with
  | nil => intro _ v; rfl
  | cons kv rest ih =>
    intro h v
    rw [keys_cons] at h
    rw [dictInsert, if_neg (fun he => h (by rw [← he]; exact List.mem_cons_self _ _)),
      ih (fun hm => h (List.mem_cons_of_mem _ hm)) v, List.cons_append]

lemma foldl_dictInsert_fresh {α β : Type} [DecidableEq α] :
    ∀ (l acc : List (α × β)), (keys l).Nodup → (∀ x ∈ keys l, x ∉ keys acc) →
      l.foldl (fun a kv => dictInsert kv.1 kv.2 a) acc = acc ++ l := by
  intro l
  induction l with
  | nil => intro acc _ _; simp
  | cons kv rest ih =>
    intro acc hnd hdisj
    rw [keys_cons] at hnd hdisj
    rw [List.foldl_cons,
      dictInsert_fresh (hdisj kv.1 (List.mem_cons_self _ _)) kv.2]
    rw [ih (acc ++ [(kv.1, kv.2)]) hnd.of_cons ?_]
    · simp
    · intro x hx
      rw [keys, List.map_append]
      simp only [List.mem_append]
      rintro (hxa | hxb)
      · exact hdisj x (List.mem_cons_of_mem _ hx) hxa
      · simp only [keys, List.map_cons, List.map_nil, List.mem_singleton] at hxb
        rw [hxb] at hx
        exact (List.nodup_cons.mp hnd).1 hx

lemma persistCache_map {c : List (RKey × RModel)}
    (hnd : (keys (c.map fun kv => (encodeKey kv.1, kv.2))).Nodup) :
    persistCache c = c.map fun kv => (encodeKey kv.1, kv.2) := by
  have hfold : persistCache c =
      (c.map fun kv => (encodeKey kv.1, kv.2)).foldl
        (fun a kv => dictInsert kv.1 kv.2 a) [] := by
    rw [persistCache, List.foldl_map]
  rw [hfold, foldl_dictInsert_fresh _ [] hnd (by intro x _ hx; cases hx), List.nil_append]

lemma load_fold_fresh :
    ∀ (c acc : List (RKey × RModel)),
      (∀ kv ∈ c, decodeKey (encodeKey kv.1) = some kv.1) →
      (keys c).Nodup →
      (∀ x ∈ keys c, x ∉ keys acc) →
      (c.map fun kv => (encodeKey kv.1, kv.2)).foldl
        (fun acc e =>
          match decodeKey e.1 with
          | some k => dictInsert k e.2 acc
          | none => acc) acc = acc ++ c := by
  intro c
  induction c with
  | nil => intro acc _ _ _; simp
  | cons kv rest ih =>
    intro acc hdec hnd hdisj
    rw [keys_cons] at hnd hdisj
    rw [List.map_cons, List.foldl_cons]
    have hstep : (match decodeKey (encodeKey kv.1, kv.2).1 with
        | some k => dictInsert k (encodeKey kv.1, kv.2).2 acc
        | none => acc) = acc ++ [(kv.1, kv.2)] := by
      rw [show ((encodeKey kv.1, kv.2).1) = encodeKey kv.1 from rfl,
        hdec kv (List.mem_cons_self _ _)]
      exact dictInsert_fresh (hdisj kv.1 (List.mem_cons_self _ _)) kv.2
    rw [hstep]
    rw [ih (acc ++ [(kv.1, kv.2)]) (fun x hx => hdec x (List.mem_cons_of_mem _ hx))
      hnd.of_cons ?_]
    · simp
    · intro x hx
      rw [keys, List.map_append]
      simp only [List.mem_append]
      rintro (hxa | hxb)
      · exact hdisj x (List.mem_cons_of_mem _ hx) hxa
      · simp only [List.map_cons, List.map_nil, List.mem_singleton] at hxb
        rw [hxb] at hx
        exact (List.nodup_cons.mp hnd).1 hx

lemma loadCache_map {c : List (RKey × RModel)}
    (hdec : ∀ kv ∈ c, decodeKey (encodeKey kv.1) = some kv.1)
    (hnd : (keys c).Nodup) :
    loadCache (c.map fun kv => (encodeKey kv.1, kv.2)) = c := by
  rw [loadCache, load_fold_fresh c [] hdec hnd (by intro x _ hx; cases hx),
    List.nil_append]

/-- C7 counterexample: a cache entry whose command parameter contains a
comma is corrupted by the unescaped `",".join`/`split(",")` round-trip: the
single parameter `"a,b"` reloads as the two parameters `"a"`, `"b"`, so
persist-then-load is not the identity on the cache mapping. -/
theorem cache_roundtrip_cex :
    loadCache (persistCache [(keyX, mX)]) =
      [((Backend.llamacpp, ['m'], [['a'], ['b']]), mX)] ∧
    loadCache (persistCache [(keyX, mX)]) ≠ [(keyX, mX)] := by
  constructor <;> decide

/-- C7 amended.  On caches whose keys are clean — model names free of `':'`,
parameters free of `':'` and `','`, and the parameter list not a single
empty string — with distinct keys, persist-then-load is the identity, and a
manager restarted from the persisted cache answers `get_or_measure` with the
identical four-tuple for every previously measured key, without measuring
and with its state unchanged. -/
theorem cache_roundtrip_amended (env : Env) (c : List (RKey × RModel))
    (hclean : ∀ kv ∈ c, cleanKey kv.1) (hnd : (keys c).Nodup) :
    loadCache (persistCache c) = c ∧
    ∀ (a : Alias) (m : RModel) (σ : MState),
      σ.resource_models = loadCache (persistCache c) →
      lookupRM (rkey a) c = some m →
      get_or_measure env a σ = (m, σ) := by
  have hdec : ∀ kv ∈ c, decodeKey (encodeKey kv.1) = some kv.1 :=
    fun kv hkv => decode_encode (hclean kv hkv)
  have hinj : ∀ x ∈ keys c, ∀ y ∈ keys c, encodeKey x = encodeKey y → x = y := by
    intro x hx y hy he
    obtain ⟨kv1, h1, rfl⟩ := List.mem_map.mp hx
    obtain ⟨kv2, h2, rfl⟩ := List.mem_map.mp hy
    have hd := decode_encode (hclean kv1 h1)
    rw [he, decode_encode (hclean kv2 h2)] at hd
    exact (Option.some.inj hd).symm
  have hnd2 : (keys (c.map fun kv => (encodeKey kv.1, kv.2))).Nodup := by
    have hk : keys (c.map fun kv => (encodeKey kv.1, kv.2)) = (keys c).map encodeKey := by
      simp [keys, List.map_map]
    rw [hk]
    exact hnd.map_on hinj
  have hrt : loadCache (persistCache c) = c := by
    rw [persistCache_map hnd2, loadCache_map hdec hnd]
  refine ⟨hrt, ?_⟩
  intro a m σ hσ hlk
  rw [get_or_measure, hσ, hrt, hlk]

/-- C7 amended witness: a concrete one-entry clean cache survives the
round-trip. -/
theorem cache_roundtrip_amended_witness : loadCache (persistCache cW) = cW :=
  (cache_roundtrip_amended envW cW (by decide) (by decide)).1

/-! ### Claim C8: llama.cpp model-path resolution -/

/-- C8 counterexample: the source returns any name ending in `.gguf`
verbatim — it never checks that the path is absolute (nor that the file
exists): the relative name `"m.gguf"` resolves verbatim in an environment
with no global config and no files at all, refuting the "if and only if it
ends in `.gguf` and is an absolute file path" characterisation. -/
theorem resolve_verbatim_cex :
    resolve_model_path envR nameRel = Except.ok nameRel ∧
    isAbsolutePath nameRel = false ∧ envR.fileExists nameRel = false := by
  refine ⟨?_, rfl, rfl⟩
  decide

/-- C8 amended.  The model path is the alias's `model_id` verbatim if and
only if it ends in `.gguf` (no absoluteness or existence check); otherwise
it is looked up under the global config's model directory with `.gguf`
appended, and a missing global config, missing (or empty, hence falsy)
model directory, or missing model file fails with the respective
`ValueError` (the spec's `ModelNotFound`). -/
theorem resolve_model_path_amended (env : ResolveEnv) (name : Str) :
    (endsWith ggufSuffix name = true → resolve_model_path env name = Except.ok name) ∧
    (endsWith ggufSuffix name = false →
      (∀ out, resolve_model_path env name = Except.ok out → out ≠ name) ∧
      (env.globalConfig = none →
        resolve_model_path env name = Except.error ResolveErr.noGlobalConfig) ∧
      (env.globalConfig = some none →
        resolve_model_path env name = Except.error ResolveErr.noLlamaDir) ∧
      (env.globalConfig = some (some []) →
        resolve_model_path env name = Except.error ResolveErr.noLlamaDir) ∧
      (∀ dir, dir ≠ [] → env.globalConfig = some (some dir) →
        (env.fileExists (dir ++ '/' :: (name ++ ggufSuffix)) = true →
          resolve_model_path env name =
            Except.ok (dir ++ '/' :: (name ++ ggufSuffix))) ∧
        (env.fileExists (dir ++ '/' :: (name ++ ggufSuffix)) = false →
          resolve_model_path env name = Except.error ResolveErr.modelFileMissing))) := by
  constructor
  · intro hg
    rw [resolve_model_path, if_pos hg]
  · intro hg
    have hg' : ¬ endsWith ggufSuffix name = true := by rw [hg]; exact Bool.false_ne_true
    refine ⟨?_, ?_, ?_, ?_, ?_⟩
    · intro out hout hne
      rw [resolve_model_path, if_neg hg'] at hout
      cases hc : env.globalConfig with
      | none => rw [hc] at hout; cases hout
      | some dirOpt =>
        rw [hc] at hout
        cases dirOpt with
        | none => cases hout
        | some dir =>
          simp only at hout
          by_cases hd : dir = []
          · rw [if_pos hd] at hout; cases hout
          · rw [if_neg hd] at hout
            simp only [hg, Bool.false_eq_true, if_false] at hout
            by_cases hf : env.fileExists (dir ++ '/' :: (name ++ ggufSuffix)) = true
            · rw [if_pos hf] at hout
              have hpath : dir ++ '/' :: (name ++ ggufSuffix) = out := Except.ok.inj hout
              have hlen : out.length = name.length := by rw [hne]
              rw [← hpath] at hlen
              simp [List.length_append, ggufSuffix] at hlen
              omega
            · rw [if_neg hf] at hout; cases hout
    · intro hc
      rw [resolve_model_path, if_neg hg', hc]
    · intro hc
      rw [resolve_model_path, if_neg hg', hc]
    · intro hc
      rw [resolve_model_path, if_neg hg', hc]
      simp
    · intro dir hd hc
      constructor
      · intro hf
        rw [resolve_model_path, if_neg hg', hc]
        simp only [if_neg hd, hg, Bool.false_eq_true, if_false]
        rw [if_pos hf]
      · intro hf
        rw [resolve_model_path, if_neg hg', hc]
        simp only [if_neg hd, hg, Bool.false_eq_true, if_false]
        rw [if_neg (by rw [hf]; exact Bool.false_ne_true)]

/-- C8 amended witness: with a model directory `"d"` and the file present,
the relative name `"x"` resolves to `"d/x.gguf"`. -/
theorem resolve_model_path_amended_witness :
    resolve_model_path envR2 ['x'] =
      Except.ok (['d'] ++ '/' :: (['x'] ++ ggufSuffix)) :=
  (((resolve_model_path_amended envR2 ['x']).2 (by decide)).2.2.2.2 ['d']
    (by decide) rfl).1 rfl

/-! ### Claims C9 and C10: lifecycle start/stop -/

/-- C9 counterexample: `OllamaServer.start` has no liveness guard — called
on a live server it spawns a second `ollama serve` process (spawn flag set,
stored handle replaced by the fresh pid), refuting idempotence for the
Ollama variant. -/
theorem start_idempotent_cex :
    ollama_check_running ollamaLive = true ∧
    (ollama_start 8 ollamaLive).2 = true ∧
    (ollama_start 8 ollamaLive).1.oproc ≠ ollamaLive.oproc := by
  refine ⟨rfl, rfl, ?_⟩
  decide

/-- C9 amended.  `CommandServer.start` (and therefore the llama.cpp
variant, which inherits it unchanged) is idempotent: called while the
stored process is live it returns the same state without spawning.  The
Ollama variant is not: its `start` spawns unconditionally. -/
theorem start_idempotent_amended :
    (∀ (fresh : ℕ) (st : CmdSt), cmd_check_running st = true →
      cmd_start fresh st = (st, false)) ∧
    (∀ (fresh : ℕ) (st : CmdSt), llamacpp_start fresh st = cmd_start fresh st) ∧
    (∀ (fresh : ℕ) (st : OllamaSt), (ollama_start fresh st).2 = true) := by
  refine ⟨?_, fun _ _ => rfl, fun _ _ => rfl⟩
  intro fresh st h
  rw [cmd_check_running] at h
  cases hp : st.process with
  | none => rw [hp] at h; cases h
  | some p =>
    rw [hp] at h
    have hrc : p.returncode = none := of_decide_eq_true h
    rw [cmd_start, hp]
    simp [hrc]

/-- C9 amended witness: starting a live command server returns it unchanged
with no spawn. -/
theorem start_idempotent_amended_witness : cmd_start 5 cmdLive = (cmdLive, false) :=
  start_idempotent_amended.1 5 cmdLive rfl

/-- C10.  For both the command-launcher and Ollama variants, `stop()`
clears the stored process handle before returning, so `check_running` is
false immediately afterwards; hence the polling loop of `stop_and_wait`
exits at its first check and `stop_and_wait` terminates with status
`stopped` (the `none` branch, modelling a diverging poll, is never taken). -/
theorem stop_clears_liveness :
    (∀ st : CmdSt, cmd_check_running (cmd_stop st) = false ∧
      cmd_stop_and_wait st = some ({ process := none }, ServerStatus.stopped)) ∧
    (∀ st : OllamaSt, ollama_check_running (ollama_stop st) = false ∧
      ollama_stop_and_wait st = some ({ oproc := none, opid := none },
        ServerStatus.stopped)) :=
  ⟨fun _ => ⟨rfl, rfl⟩, fun _ => ⟨rfl, rfl⟩⟩

end LazyLlama
